import Mathlib

/-!
Verification of the ryegen orchestration core (`main.go` of the ryegen
repository) against its natural-language specification.

Go strings are modelled as lists of byte values (`GoStr := List Nat`):
Go's `len`, indexing, slicing and comparison operators all work on bytes.
All string literals appearing here are ASCII, so the byte list of a
literal is exactly the list of code points of its characters
(`String.data.map Char.toNat`).

Each definition carries a comment naming the Go function (and lines of
`main.go`) it translates.  External collaborators (the `binder`, `ir`,
`parser`, `repo`, `config` packages and the third-party `strcase`
library) are abstracted as parameters or, where a concrete value is
needed, modelled from the spec with an explicit comment.
-/

set_option synthInstance.maxSize 1000

/-- A Go string, as its list of byte values. -/
abbrev GoStr := List Nat

/-- Byte list of an ASCII string literal. -/
def strBytes (s : String) : GoStr := s.data.map Char.toNat

/-- Go's `<` on strings (byte-wise lexicographic comparison). -/
def goLess : GoStr → GoStr → Bool
  | [], [] => false
  | [], _ :: _ => true
  | _ :: _, [] => false
  | a :: as, b :: bs =>
    if a < b then true
    else if b < a then false
    else goLess as bs

/-- Go's `strings.Compare` (-1 / 0 / +1 by byte-wise lexicographic order). -/
def goCompare (a b : GoStr) : Int :=
  if goLess a b then -1 else if goLess b a then 1 else 0

theorem goLess_asymm : ∀ a b : GoStr, goLess a b = true → goLess b a = false := by
  intro a
  induction a with
  | nil => intro b h; cases b <;> simp_all [goLess]
  | cons x xs ih =>
    intro b h
    cases b with
    | nil => simp [goLess] at h
    | cons y ys =>
      simp only [goLess] at h ⊢
      by_cases hxy : x < y
      · have : ¬ y < x := by omega
        simp [hxy, this]
      · by_cases hyx : y < x
        · simp [hxy, hyx] at h
        · simp only [hxy, hyx, if_false] at h ⊢
          simp [ih ys h]

theorem goLess_total_eq : ∀ a b : GoStr, goLess a b = false → goLess b a = false → a = b := by
  intro a
  induction a with
  | nil => intro b h₁ _; cases b <;> simp_all [goLess]
  | cons x xs ih =>
    intro b h₁ h₂
    cases b with
    | nil => simp [goLess] at h₂
    | cons y ys =>
      simp only [goLess] at h₁ h₂
      by_cases hxy : x < y
      · simp [hxy] at h₁
      · by_cases hyx : y < x
        · simp [hxy, hyx] at h₂
        · have hx : x = y := by omega
          subst hx
          simp only [lt_irrefl, if_false] at h₁ h₂
          rw [ih ys h₁ h₂]

theorem goCompare_swap (a b : GoStr) : goCompare b a = -(goCompare a b) := by
  unfold goCompare
  by_cases h₁ : goLess a b = true
  · simp [h₁, goLess_asymm a b h₁]
  · by_cases h₂ : goLess b a = true
    · simp [h₁, h₂]
    · have h₁' : goLess a b = false := by simpa using h₁
      have h₂' : goLess b a = false := by simpa using h₂
      simp [h₁', h₂']

theorem goCompare_eq_zero {a b : GoStr} (h : goCompare a b = 0) : a = b := by
  unfold goCompare at h
  by_cases h₁ : goLess a b = true
  · simp [h₁] at h
  · by_cases h₂ : goLess b a = true
    · simp [h₁, h₂] at h
    · exact goLess_total_eq a b (by simpa using h₁) (by simpa using h₂)

theorem goCompare_self (a : GoStr) : goCompare a a = 0 := by
  have h : goLess a a = false := by
    cases h' : goLess a a
    · rfl
    · exact absurd (goLess_asymm a a h') (by simp [h'])
  simp [goCompare, h]

/-- Go's `strings.Split(s, sep)` for a single-byte separator. -/
def splitOnByte (sep : Nat) : GoStr → List GoStr
  | [] => [[]]
  | c :: rest =>
    if c = sep then [] :: splitOnByte sep rest
    else
      match splitOnByte sep rest with
      | [] => [[c]]
      | g :: gs => (c :: g) :: gs

theorem splitOnByte_ne_nil (sep : Nat) (s : GoStr) : splitOnByte sep s ≠ [] := by
  cases s with
  | nil => simp [splitOnByte]
  | cons c rest =>
    simp only [splitOnByte]
    split
    · simp
    · split <;> simp

/-- Go's `strings.Join(parts, sep)` for a single-byte separator. -/
def joinByte (sep : Nat) : List GoStr → GoStr
  | [] => []
  | [g] => g
  | g :: gs => g ++ sep :: joinByte sep gs

/-- Go's `strconv.Atoi`: optional sign, then only decimal digits, and the
value must fit in a 64-bit `int` (Go returns an error otherwise). -/
def goAtoiDigits : GoStr → Option Nat
  | [] => none
  | [d] => if 48 ≤ d ∧ d ≤ 57 then some (d - 48) else none
  | d :: rest =>
    if 48 ≤ d ∧ d ≤ 57 then
      match goAtoiDigits rest with
      | some n => some ((d - 48) * 10 ^ rest.length + n)
      | none => none
    else none

def goAtoi (s : GoStr) : Option Int :=
  match s with
  | 43 :: rest =>  -- '+'
    match goAtoiDigits rest with
    | some n => if n ≤ 9223372036854775807 then some (Int.ofNat n) else none
    | none => none
  | 45 :: rest =>  -- '-'
    match goAtoiDigits rest with
    | some n => if n ≤ 9223372036854775808 then some (-(Int.ofNat n)) else none
    | none => none
  | _ =>
    match goAtoiDigits s with
    | some n => if n ≤ 9223372036854775807 then some (Int.ofNat n) else none
    | none => none

/-- `modulePathElementVersion` (main.go:40-48): parses strings like
"v2", "v3"; returns -1 when the element is not a version marker. -/
def modulePathElementVersion (s : GoStr) : Int :=
  match s with
  | 118 :: rest =>  -- 'v'
    match goAtoi rest with
    | some ver => if ver ≥ 1 then ver else -1
    | none => -1
  | _ => -1

/-- `removeModulePathVersionElements` (main.go:50-60): removes all
"v2", "v3", ... path elements. -/
def removeModulePathVersionElements (s : GoStr) : GoStr :=
  joinByte 47 ((splitOnByte 47 s).filter (fun v => modulePathElementVersion v = -1))

/-- First decisive comparison wins; `0` means "continue with the next
rule".  Encodes the early-`return` chain of `makeCompareModulePaths`. -/
def stepCmp (x next : Int) : Int := if x = 0 then next else x

/-- `true` sorts first; both-or-neither ties. -/
def cmpBool (x y : Bool) : Int :=
  if x && !y then -1 else if !x && y then 1 else 0

def cmpNat (x y : Nat) : Int := if x < y then -1 else if y < x then 1 else 0

/-- Descending string comparison (main.go:99-103: the larger stripped
string sorts first). -/
def cmpStrDesc (a b : GoStr) : Int :=
  if goLess b a then -1 else if goLess a b then 1 else 0

/-- Version tie-break block of `makeCompareModulePaths` (main.go:104-125),
operating on the `/`-split original paths.  The guard
`len(aSp) >= 1 && len(bSp) >= 1` of the source is always true because
`strings.Split` never returns an empty slice. -/
def cmpVer (aSp bSp : List GoStr) : Int :=
  if aSp.length = bSp.length ∧
      modulePathElementVersion (aSp.getLastD []) > modulePathElementVersion (bSp.getLastD []) then -1
  else if aSp.length = bSp.length + 1 ∧ modulePathElementVersion (aSp.getLastD []) > 1 then -1
  else if aSp.length = bSp.length ∧
      modulePathElementVersion (aSp.getLastD []) < modulePathElementVersion (bSp.getLastD []) then 1
  else if aSp.length + 1 = bSp.length ∧ modulePathElementVersion (bSp.getLastD []) > 1 then 1
  else 0

/-- Whether a path's first segment contains no dot, i.e. looks like a
standard-library path (main.go:73-77; `SplitN(a, "/", 2)[0]` is the part
of `a` before the first `/`). -/
def isStdFirstSeg (a : GoStr) : Bool :=
  !(((splitOnByte 47 a).headD []).contains 46)

/-- Go's `strings.HasPrefix`. -/
def goHasPfx (s pfx : GoStr) : Bool := pfx.isPrefixOf s

/-- The comparator returned by `makeCompareModulePaths preferPkg`
(main.go:68-128).  `aOrig`/`bOrig` are the unstripped paths; the early
`return`s of the source are encoded with `stepCmp`. -/
def compareModulePaths (preferPkg aOrig bOrig : GoStr) : Int :=
  stepCmp (cmpBool (isStdFirstSeg (removeModulePathVersionElements aOrig))
                   (isStdFirstSeg (removeModulePathVersionElements bOrig)))
    (stepCmp (if preferPkg = [] then 0 else cmpBool (goHasPfx aOrig preferPkg) (goHasPfx bOrig preferPkg))
      (stepCmp (cmpNat (removeModulePathVersionElements aOrig).length
                       (removeModulePathVersionElements bOrig).length)
        (stepCmp (cmpStrDesc (removeModulePathVersionElements aOrig)
                             (removeModulePathVersionElements bOrig))
          (stepCmp (cmpVer (splitOnByte 47 aOrig) (splitOnByte 47 bOrig))
            (goCompare aOrig bOrig)))))

theorem stepCmp_neg (x n : Int) : stepCmp (-x) (-n) = -(stepCmp x n) := by
  unfold stepCmp
  by_cases hx : x = 0
  · simp [hx]
  · have : ¬(-x = 0) := by omega
    simp [hx, this]

theorem cmpBool_swap (x y : Bool) : cmpBool y x = -(cmpBool x y) := by
  cases x <;> cases y <;> simp [cmpBool]

theorem cmpNat_swap (x y : Nat) : cmpNat y x = -(cmpNat x y) := by
  unfold cmpNat
  by_cases h₁ : x < y
  · have : ¬ y < x := by omega
    simp [h₁, this]
  · by_cases h₂ : y < x
    · simp [h₁, h₂]
    · simp [h₁, h₂]

theorem cmpStrDesc_swap (a b : GoStr) : cmpStrDesc b a = -(cmpStrDesc a b) := by
  unfold cmpStrDesc
  by_cases h₁ : goLess b a = true
  · simp [h₁, goLess_asymm b a h₁]
  · by_cases h₂ : goLess a b = true
    · simp [h₁, h₂, goLess_asymm a b h₂]
    · have h₁' : goLess b a = false := by simpa using h₁
      have h₂' : goLess a b = false := by simpa using h₂
      simp [h₁', h₂']

theorem cmpVer_swap (aSp bSp : List GoStr) : cmpVer bSp aSp = -(cmpVer aSp bSp) := by
  unfold cmpVer
  split_ifs <;> omega

theorem cmpPfxIf_swap (p x y : GoStr) :
    (if p = [] then (0 : Int) else cmpBool (goHasPfx y p) (goHasPfx x p)) =
      -(if p = [] then (0 : Int) else cmpBool (goHasPfx x p) (goHasPfx y p)) := by
  by_cases hp : p = []
  · simp [hp]
  · simp only [hp, if_false]
    exact cmpBool_swap _ _

theorem compareModulePaths_swap (p a b : GoStr) :
    compareModulePaths p b a = -(compareModulePaths p a b) := by
  unfold compareModulePaths
  rw [cmpBool_swap (isStdFirstSeg (removeModulePathVersionElements a))
        (isStdFirstSeg (removeModulePathVersionElements b)),
      cmpPfxIf_swap p a b,
      cmpNat_swap (removeModulePathVersionElements a).length
        (removeModulePathVersionElements b).length,
      cmpStrDesc_swap (removeModulePathVersionElements a) (removeModulePathVersionElements b),
      cmpVer_swap (splitOnByte 47 a) (splitOnByte 47 b),
      goCompare_swap a b,
      stepCmp_neg, stepCmp_neg, stepCmp_neg, stepCmp_neg, stepCmp_neg]

theorem stepCmp_eq_zero {x n : Int} (h : stepCmp x n = 0) : x = 0 ∧ n = 0 := by
  unfold stepCmp at h
  by_cases hx : x = 0
  · simp [hx] at h; exact ⟨hx, h⟩
  · simp [hx] at h

theorem compareModulePaths_eq_zero {p a b : GoStr}
    (h : compareModulePaths p a b = 0) : a = b := by
  unfold compareModulePaths at h
  have h1 := stepCmp_eq_zero h
  have h2 := stepCmp_eq_zero h1.2
  have h3 := stepCmp_eq_zero h2.2
  have h4 := stepCmp_eq_zero h3.2
  have h5 := stepCmp_eq_zero h4.2
  exact goCompare_eq_zero h5.2

/-- Antisymmetry of the module-path comparator: if neither path sorts
strictly after the other, they are the same path. -/
theorem compareModulePaths_antisymm {p a b : GoStr}
    (h₁ : compareModulePaths p a b ≤ 0) (h₂ : compareModulePaths p b a ≤ 0) : a = b := by
  have hs := compareModulePaths_swap p a b
  have : compareModulePaths p a b = 0 := by omega
  exact compareModulePaths_eq_zero this

theorem stepCmp_zero (n : Int) : stepCmp 0 n = n := by simp [stepCmp]

theorem stepCmp_of_ne {x : Int} (n : Int) (h : x ≠ 0) : stepCmp x n = x := by
  simp [stepCmp, h]

theorem cmpBool_self (x : Bool) : cmpBool x x = 0 := by cases x <;> simp [cmpBool]

theorem cmpNat_self (n : Nat) : cmpNat n n = 0 := by simp [cmpNat]

theorem goLess_irrefl (a : GoStr) : goLess a a = false := by
  cases h : goLess a a
  · rfl
  · exact absurd (goLess_asymm a a h) (by simp [h])

theorem cmpStrDesc_self (a : GoStr) : cmpStrDesc a a = 0 := by
  simp [cmpStrDesc, goLess_irrefl]

theorem getLastD_append_single (l : List GoStr) (x d : GoStr) :
    (l ++ [x]).getLastD d = x := by
  induction l with
  | nil => rfl
  | cons y ys ih =>
    cases ys with
    | nil => rfl
    | cons z zs => simpa using ih

/-- C9: among module paths that tie on the stdlib rule, the
preferred-package rule and the stripped byte length, the comparator of
`makeCompareModulePaths` (main.go:99-103) sorts the lexicographically
larger version-stripped string first (descending tie-break). -/
theorem moduleOrderer_equal_length_descending (p a b : GoStr)
    (hstd : isStdFirstSeg (removeModulePathVersionElements a) =
            isStdFirstSeg (removeModulePathVersionElements b))
    (hpfx : goHasPfx a p = goHasPfx b p)
    (hlen : (removeModulePathVersionElements a).length =
            (removeModulePathVersionElements b).length)
    (hgt : goLess (removeModulePathVersionElements b)
                  (removeModulePathVersionElements a) = true) :
    compareModulePaths p a b = -1 ∧ compareModulePaths p b a = 1 := by
  have hmain : compareModulePaths p a b = -1 := by
    unfold compareModulePaths
    rw [hstd, cmpBool_self, stepCmp_zero]
    have hpfx0 : (if p = [] then (0 : Int)
        else cmpBool (goHasPfx a p) (goHasPfx b p)) = 0 := by
      by_cases hp : p = []
      · simp [hp]
      · simp [hp, hpfx, cmpBool_self]
    rw [hpfx0, stepCmp_zero, hlen, cmpNat_self, stepCmp_zero]
    have hdesc : cmpStrDesc (removeModulePathVersionElements a)
        (removeModulePathVersionElements b) = -1 := by
      simp [cmpStrDesc, hgt]
    rw [hdesc]
    exact stepCmp_of_ne _ (by omega)
  refine ⟨hmain, ?_⟩
  rw [compareModulePaths_swap, hmain]
  decide

/-- Witness for C9 at `"example.com/bbb"` vs `"example.com/aaa"`. -/
theorem moduleOrderer_equal_length_descending_witness :
    compareModulePaths [] (strBytes "example.com/bbb") (strBytes "example.com/aaa") = -1 ∧
    compareModulePaths [] (strBytes "example.com/aaa") (strBytes "example.com/bbb") = 1 :=
  moduleOrderer_equal_length_descending [] (strBytes "example.com/bbb")
    (strBytes "example.com/aaa") (by decide) (by decide) (by decide) (by decide)

/-- C10: when one original path has exactly one more `/`-segment than the
other, that extra trailing segment is a version marker greater than 1,
and all earlier rules tie (equal stripped paths, prefix tie), the
comparator (main.go:112-115, 120-123) sorts the versioned path first. -/
theorem moduleOrderer_versioned_path_first (p a b s : GoStr)
    (hpfx : goHasPfx a p = goHasPfx b p)
    (hstrip : removeModulePathVersionElements a = removeModulePathVersionElements b)
    (hsplit : splitOnByte 47 a = splitOnByte 47 b ++ [s])
    (hver : modulePathElementVersion s > 1) :
    compareModulePaths p a b = -1 ∧ compareModulePaths p b a = 1 := by
  have hmain : compareModulePaths p a b = -1 := by
    unfold compareModulePaths
    rw [hstrip, cmpBool_self, stepCmp_zero]
    have hpfx0 : (if p = [] then (0 : Int)
        else cmpBool (goHasPfx a p) (goHasPfx b p)) = 0 := by
      by_cases hp : p = []
      · simp [hp]
      · simp [hp, hpfx, cmpBool_self]
    rw [hpfx0, stepCmp_zero, cmpNat_self, stepCmp_zero, cmpStrDesc_self, stepCmp_zero]
    have hv : cmpVer (splitOnByte 47 a) (splitOnByte 47 b) = -1 := by
      rw [hsplit]
      unfold cmpVer
      rw [getLastD_append_single]
      have hlen : (splitOnByte 47 b ++ [s]).length = (splitOnByte 47 b).length + 1 := by
        simp
      rw [hlen]
      have hne : ¬((splitOnByte 47 b).length + 1 = (splitOnByte 47 b).length ∧
          modulePathElementVersion s > modulePathElementVersion ((splitOnByte 47 b).getLastD [])) := by
        rintro ⟨h, -⟩; omega
      rw [if_neg hne, if_pos ⟨rfl, by omega⟩]
    rw [hv]
    exact stepCmp_of_ne _ (by omega)
  refine ⟨hmain, ?_⟩
  rw [compareModulePaths_swap, hmain]
  decide

/-- Witness for C10 at `"example.com/lib/v2"` vs `"example.com/lib"`. -/
theorem moduleOrderer_versioned_path_first_witness :
    compareModulePaths [] (strBytes "example.com/lib/v2") (strBytes "example.com/lib") = -1 ∧
    compareModulePaths [] (strBytes "example.com/lib") (strBytes "example.com/lib/v2") = 1 :=
  moduleOrderer_versioned_path_first [] (strBytes "example.com/lib/v2")
    (strBytes "example.com/lib") (strBytes "v2") (by decide) (by decide) (by decide) (by decide)

/-- Modelled from the spec: the external normalizer (`strcase.ToSnake`
from the third-party strcase library), described as "convert it to a
normalized lowercase-with-separators form".  Lowercases ASCII letters
and turns `.`, space and `-` into `_`; on all-lowercase path segments it
is the identity, and on `"example.com"` it yields `"example_com"`,
matching the library on every input used here.  The namer itself is
parameterized over this function. -/
def toSnakeModel (s : GoStr) : GoStr :=
  s.map (fun c =>
    if 65 ≤ c ∧ c ≤ 90 then c + 32
    else if c = 46 ∨ c = 32 ∨ c = 45 then 95
    else c)

/-- Candidate-construction loop of `recursivelyGetRepo` (main.go:239-256).
The loop condition "candidate already taken" is checked first; with the
candidate taken and no path elements left the run fails (`none`).  The
first argument list is the version-stripped path split on `/` and
reversed, because the source consumes trailing segments right-to-left
(truncating `modPathElems` at each step).  `comps` is `nameComponents`,
seeded with the module's declared package name. -/
def uniqueNameLoop (toSnakeF : GoStr → GoStr) (existing : List GoStr) :
    List GoStr → List GoStr → Option GoStr
  | [], comps =>
    if joinByte 95 comps ∈ existing then none
    else some (joinByte 95 comps)
  | e :: rest, comps =>
    if joinByte 95 comps ∈ existing then
      if toSnakeF e ∈ comps then uniqueNameLoop toSnakeF existing rest comps
      else uniqueNameLoop toSnakeF existing rest (toSnakeF e :: comps)
    else some (joinByte 95 comps)

/-- Outer per-module loop of `recursivelyGetRepo` (main.go:228-260):
processes the sorted module paths in order, recording each final name as
taken (`existingModuleNames`) and appending the (path, name) pair to the
result. -/
def assignUniqueNames (toSnakeF defaultNames : GoStr → GoStr) :
    List GoStr → List GoStr → List (GoStr × GoStr) → Option (List (GoStr × GoStr))
  | [], _, acc => some acc
  | modPath :: rest, existing, acc =>
    match uniqueNameLoop toSnakeF existing
        ((splitOnByte 47 (removeModulePathVersionElements modPath)).reverse)
        [defaultNames modPath] with
    | none => none
    | some name =>
      assignUniqueNames toSnakeF defaultNames rest (name :: existing) (acc ++ [(modPath, name)])

/-- The unique-module-name assignment of `recursivelyGetRepo`
(main.go:219-260): the sentinel entry `modUniqueNames["C"] = "C"` is
written first (main.go:219), but — exactly as in the source — `"C"` is
NOT inserted into `existingModuleNames`, so the per-module loop starts
with an empty taken-name set. -/
def recursivelyGetRepoNames (toSnakeF defaultNames : GoStr → GoStr)
    (sortedKeys : List GoStr) : Option (List (GoStr × GoStr)) :=
  (assignUniqueNames toSnakeF defaultNames sortedKeys [] []).map
    (fun pairs => (strBytes "C", strBytes "C") :: pairs)

theorem uniqueNameLoop_not_mem (toSnakeF : GoStr → GoStr) (existing : List GoStr) :
    ∀ rev comps n, uniqueNameLoop toSnakeF existing rev comps = some n → n ∉ existing := by
  intro rev
  induction rev with
  | nil =>
    intro comps n h
    simp only [uniqueNameLoop] at h
    by_cases hm : joinByte 95 comps ∈ existing
    · simp [hm] at h
    · simp [hm] at h; subst h; exact hm
  | cons e rest ih =>
    intro comps n h
    simp only [uniqueNameLoop] at h
    by_cases hm : joinByte 95 comps ∈ existing
    · rw [if_pos hm] at h
      by_cases hs : toSnakeF e ∈ comps
      · rw [if_pos hs] at h; exact ih comps n h
      · rw [if_neg hs] at h; exact ih (toSnakeF e :: comps) n h
    · rw [if_neg hm] at h
      injection h with h'
      subst h'; exact hm

theorem assignUniqueNames_spec (toSnakeF defaultNames : GoStr → GoStr) :
    ∀ (keys existing : List GoStr) (acc res : List (GoStr × GoStr)),
      assignUniqueNames toSnakeF defaultNames keys existing acc = some res →
      ∃ newPairs, res = acc ++ newPairs ∧ (newPairs.map Prod.snd).Nodup ∧
        ∀ n ∈ newPairs.map Prod.snd, n ∉ existing := by
  intro keys
  induction keys with
  | nil =>
    intro existing acc res h
    simp only [assignUniqueNames] at h
    injection h with h'
    exact ⟨[], by simp [h'], by simp, by simp⟩
  | cons modPath rest ih =>
    intro existing acc res h
    simp only [assignUniqueNames] at h
    cases hu : uniqueNameLoop toSnakeF existing
        ((splitOnByte 47 (removeModulePathVersionElements modPath)).reverse)
        [defaultNames modPath] with
    | none => rw [hu] at h; exact absurd h (by simp)
    | some name =>
      rw [hu] at h
      obtain ⟨newPairs, hres, hnd, hnm⟩ := ih (name :: existing) (acc ++ [(modPath, name)]) res h
      refine ⟨(modPath, name) :: newPairs, by simpa using hres, ?_, ?_⟩
      · simp only [List.map_cons, List.nodup_cons]
        refine ⟨?_, hnd⟩
        intro hmem
        exact (hnm name hmem) (by simp)
      · intro n hn
        simp only [List.map_cons, List.mem_cons] at hn
        rcases hn with hn | hn
        · subst hn
          exact uniqueNameLoop_not_mem toSnakeF existing _ _ _ hu
        · intro hmem
          exact (hnm n hn) (by simp [hmem])

/-- C1 counterexample: with a single input module `"example.com/foo"`
whose declared package name is `"C"`, the output map contains both the
sentinel entry `("C", "C")` and `("example.com/foo", "C")`: two distinct
module paths with the same unique name.  The sentinel name `"C"` is
reserved in the output map (main.go:219) but never added to
`existingModuleNames`, so the loop reuses it. -/
theorem uniqueModuleNamer_sentinel_collision :
    recursivelyGetRepoNames toSnakeModel (fun _ => strBytes "C") [strBytes "example.com/foo"] =
      some [(strBytes "C", strBytes "C"), (strBytes "example.com/foo", strBytes "C")] ∧
    strBytes "C" ≠ strBytes "example.com/foo" ∧
    ¬ List.Pairwise (fun p q : GoStr × GoStr => p.1 ≠ q.1 → p.2 ≠ q.2)
      [(strBytes "C", strBytes "C"), (strBytes "example.com/foo", strBytes "C")] := by
  refine ⟨by decide, by decide, ?_⟩
  intro hpw
  have := (List.pairwise_cons.mp hpw).1 (strBytes "example.com/foo", strBytes "C") (by simp)
  exact absurd rfl (this (by decide))

/-- C1 (amended): the names assigned by the per-module loop of
`recursivelyGetRepo` are pairwise distinct, so the output restricted to
the input module paths is injective; only the reserved sentinel entry
`("C", "C")` can collide, since `"C"` is not recorded as taken. -/
theorem uniqueModuleNamer_injective_on_inputs (toSnakeF defaultNames : GoStr → GoStr)
    (keys : List GoStr) (pairs : List (GoStr × GoStr))
    (h : assignUniqueNames toSnakeF defaultNames keys [] [] = some pairs) :
    (pairs.map Prod.snd).Nodup := by
  obtain ⟨newPairs, hres, hnd, -⟩ := assignUniqueNames_spec toSnakeF defaultNames keys [] [] pairs h
  simp only [List.nil_append] at hres
  subst hres
  exact hnd

/-- Witness for the amended C1 on two concrete modules that both declare
the package name `"a"`. -/
theorem uniqueModuleNamer_injective_on_inputs_witness :
    assignUniqueNames toSnakeModel (fun _ => strBytes "a") [strBytes "x", strBytes "y"] [] [] =
      some [(strBytes "x", strBytes "a"), (strBytes "y", strBytes "y_a")] ∧
    (([(strBytes "x", strBytes "a"), (strBytes "y", strBytes "y_a")].map Prod.snd)).Nodup :=
  ⟨by decide, uniqueModuleNamer_injective_on_inputs toSnakeModel (fun _ => strBytes "a")
    [strBytes "x", strBytes "y"] _ (by decide)⟩

theorem uniqueNameLoop_done (toSnakeF : GoStr → GoStr) (existing : List GoStr)
    (rev comps : List GoStr) (h : joinByte 95 comps ∉ existing) :
    uniqueNameLoop toSnakeF existing rev comps = some (joinByte 95 comps) := by
  cases rev <;> simp [uniqueNameLoop, h]

theorem uniqueNameLoop_skip (toSnakeF : GoStr → GoStr) (existing : List GoStr)
    (e : GoStr) (rest comps : List GoStr)
    (h : joinByte 95 comps ∈ existing) (hs : toSnakeF e ∈ comps) :
    uniqueNameLoop toSnakeF existing (e :: rest) comps =
      uniqueNameLoop toSnakeF existing rest comps := by
  simp [uniqueNameLoop, h, hs]

theorem uniqueNameLoop_add (toSnakeF : GoStr → GoStr) (existing : List GoStr)
    (e : GoStr) (rest comps : List GoStr)
    (h : joinByte 95 comps ∈ existing) (hs : toSnakeF e ∉ comps) :
    uniqueNameLoop toSnakeF existing (e :: rest) comps =
      uniqueNameLoop toSnakeF existing rest (toSnakeF e :: comps) := by
  simp [uniqueNameLoop, h, hs]

theorem uniqueNameLoop_fatal (toSnakeF : GoStr → GoStr) (existing : List GoStr)
    (comps : List GoStr) (h : joinByte 95 comps ∈ existing) :
    uniqueNameLoop toSnakeF existing [] comps = none := by
  simp [uniqueNameLoop, h]

/-- The reversed element list the namer walks for the module path
`"example.com/app/resources/audio"`. -/
def audioRevElems : List GoStr :=
  (splitOnByte 47 (removeModulePathVersionElements
    (strBytes "example.com/app/resources/audio"))).reverse

theorem uniqueNameLoop_nodup_components (toSnakeF : GoStr → GoStr) (existing : List GoStr) :
    ∀ rev comps n, comps.Nodup →
      uniqueNameLoop toSnakeF existing rev comps = some n →
      ∃ cs, n = joinByte 95 cs ∧ cs.Nodup := by
  intro rev
  induction rev with
  | nil =>
    intro comps n hnd h
    by_cases hm : joinByte 95 comps ∈ existing
    · simp [uniqueNameLoop, hm] at h
    · rw [uniqueNameLoop_done toSnakeF existing [] comps hm] at h
      injection h with h'
      exact ⟨comps, h'.symm, hnd⟩
  | cons e rest ih =>
    intro comps n hnd h
    by_cases hm : joinByte 95 comps ∈ existing
    · by_cases hs : toSnakeF e ∈ comps
      · rw [uniqueNameLoop_skip toSnakeF existing e rest comps hm hs] at h
        exact ih comps n hnd h
      · rw [uniqueNameLoop_add toSnakeF existing e rest comps hm hs] at h
        exact ih (toSnakeF e :: comps) n (List.nodup_cons.mpr ⟨hs, hnd⟩) h
    · rw [uniqueNameLoop_done toSnakeF existing (e :: rest) comps hm] at h
      injection h with h'
      exact ⟨comps, h'.symm, hnd⟩

/-- C8: fallback construction of unique module names
(main.go:239-259).  For the module `"example.com/app/resources/audio"`
with declared name `"audio"`: if `"audio"` is free it is used; if taken,
the loop skips the path's own trailing `"audio"` segment (its normalized
form is already among the components — components never repeat) and
yields `"resources_audio"`; if that is also taken, `"app_resources_audio"`;
if every candidate up to the exhausted path is taken, the run fails
fatally (`none`).  The last conjunct states the general no-repetition
property: any name the loop produces is a join of pairwise-distinct
components. -/
theorem uniqueModuleNamer_fallback_scenario :
    (∀ existing : List GoStr,
      (strBytes "audio" ∉ existing →
        uniqueNameLoop toSnakeModel existing audioRevElems [strBytes "audio"] =
          some (strBytes "audio")) ∧
      (strBytes "audio" ∈ existing → strBytes "resources_audio" ∉ existing →
        uniqueNameLoop toSnakeModel existing audioRevElems [strBytes "audio"] =
          some (strBytes "resources_audio")) ∧
      (strBytes "audio" ∈ existing → strBytes "resources_audio" ∈ existing →
        strBytes "app_resources_audio" ∉ existing →
        uniqueNameLoop toSnakeModel existing audioRevElems [strBytes "audio"] =
          some (strBytes "app_resources_audio")) ∧
      (strBytes "audio" ∈ existing → strBytes "resources_audio" ∈ existing →
        strBytes "app_resources_audio" ∈ existing →
        strBytes "example_com_app_resources_audio" ∈ existing →
        uniqueNameLoop toSnakeModel existing audioRevElems [strBytes "audio"] = none)) ∧
    (∀ (toSnakeF : GoStr → GoStr) (existing rev comps : List GoStr) (n : GoStr),
      comps.Nodup → uniqueNameLoop toSnakeF existing rev comps = some n →
      ∃ cs, n = joinByte 95 cs ∧ cs.Nodup) := by
  have ha : audioRevElems =
      [strBytes "audio", strBytes "resources", strBytes "app", strBytes "example.com"] := by
    decide
  constructor
  · intro existing
    refine ⟨?_, ?_, ?_, ?_⟩
    · intro h1
      exact uniqueNameLoop_done toSnakeModel existing audioRevElems [strBytes "audio"] h1
    · intro h1 h2
      have h1' : joinByte 95 [strBytes "audio"] ∈ existing := h1
      have h2' : joinByte 95 [toSnakeModel (strBytes "resources"), strBytes "audio"] ∉
          existing := h2
      rw [ha,
        uniqueNameLoop_skip toSnakeModel existing _ _ _ h1' (by decide),
        uniqueNameLoop_add toSnakeModel existing _ _ _ h1' (by decide),
        uniqueNameLoop_done toSnakeModel existing _ _ h2']
      decide
    · intro h1 h2 h3
      have h1' : joinByte 95 [strBytes "audio"] ∈ existing := h1
      have h2' : joinByte 95 [toSnakeModel (strBytes "resources"), strBytes "audio"] ∈
          existing := h2
      have h3' : joinByte 95 [toSnakeModel (strBytes "app"),
          toSnakeModel (strBytes "resources"), strBytes "audio"] ∉ existing := h3
      rw [ha,
        uniqueNameLoop_skip toSnakeModel existing _ _ _ h1' (by decide),
        uniqueNameLoop_add toSnakeModel existing _ _ _ h1' (by decide),
        uniqueNameLoop_add toSnakeModel existing _ _ _ h2' (by decide),
        uniqueNameLoop_done toSnakeModel existing _ _ h3']
      decide
    · intro h1 h2 h3 h4
      have h1' : joinByte 95 [strBytes "audio"] ∈ existing := h1
      have h2' : joinByte 95 [toSnakeModel (strBytes "resources"), strBytes "audio"] ∈
          existing := h2
      have h3' : joinByte 95 [toSnakeModel (strBytes "app"),
          toSnakeModel (strBytes "resources"), strBytes "audio"] ∈ existing := h3
      have h4' : joinByte 95 [toSnakeModel (strBytes "example.com"),
          toSnakeModel (strBytes "app"), toSnakeModel (strBytes "resources"),
          strBytes "audio"] ∈ existing := h4
      rw [ha,
        uniqueNameLoop_skip toSnakeModel existing _ _ _ h1' (by decide),
        uniqueNameLoop_add toSnakeModel existing _ _ _ h1' (by decide),
        uniqueNameLoop_add toSnakeModel existing _ _ _ h2' (by decide),
        uniqueNameLoop_add toSnakeModel existing _ _ _ h3' (by decide),
        uniqueNameLoop_fatal toSnakeModel existing _ h4']
  · exact fun f ex rev comps n => uniqueNameLoop_nodup_components f ex rev comps n

/-- Witness for C8 with concrete taken-name sets. -/
theorem uniqueModuleNamer_fallback_scenario_witness :
    uniqueNameLoop toSnakeModel [strBytes "audio"] audioRevElems [strBytes "audio"] =
      some (strBytes "resources_audio") ∧
    uniqueNameLoop toSnakeModel [strBytes "audio", strBytes "resources_audio"]
      audioRevElems [strBytes "audio"] = some (strBytes "app_resources_audio") ∧
    uniqueNameLoop toSnakeModel
      [strBytes "audio", strBytes "resources_audio", strBytes "app_resources_audio",
        strBytes "example_com_app_resources_audio"]
      audioRevElems [strBytes "audio"] = none :=
  ⟨((uniqueModuleNamer_fallback_scenario.1 [strBytes "audio"]).2.1 (by decide) (by decide)),
   ((uniqueModuleNamer_fallback_scenario.1 _).2.2.1 (by decide) (by decide) (by decide)),
   ((uniqueModuleNamer_fallback_scenario.1 _).2.2.2 (by decide) (by decide) (by decide) (by decide))⟩

/-- A warning emitted for an equal-priority naming conflict
(main.go:847-854): indices of the two conflicting bindings in
`sortedBindings` (standing for their unique keys), the old top
candidate, and the forced new name. -/
abbrev BnWarn := Nat × Nat × GoStr × GoStr

/-- Go map lookup on an association list where assignment conses a new
entry (the first match shadows older entries, like map assignment
overwrites). -/
def alookup : List (GoStr × Nat) → GoStr → Option Nat
  | [], _ => none
  | (k, v) :: t, key => if k = key then some v else alookup t key

/-- One pass of the binding-naming conflict-resolution loop of `TryRun`
(main.go:829-863): `idxs` is the iteration `for i := range sortedBindings`,
`cands` is `nameCandidates`, `tops` is the `topNames` map, `fc` is
`foundConflict` and `ws` the accumulated warnings.  An empty candidate
list is the fatal "unable to resolve naming conflict" error (`none`).
The source's `nameCandidates[otherI][1:]` is written with `tail`
(equivalent: the looked-up entry is never empty when reached). -/
def resolvePass (prios : List Int) :
    List Nat → List (List GoStr) → List (GoStr × Nat) → Bool → List BnWarn →
    Option (List (List GoStr) × Bool × List BnWarn)
  | [], cands, _, fc, ws => some (cands, fc, ws)
  | i :: rest, cands, tops, fc, ws =>
    match cands.getD i [] with
    | [] => none
    | top :: tl =>
      match alookup tops top with
      | none => resolvePass prios rest cands ((top, i) :: tops) fc ws
      | some otherI =>
        if prios.getD otherI 0 < prios.getD i 0 then
          resolvePass prios rest (cands.set i tl) ((top, otherI) :: tops) true ws
        else if prios.getD i 0 < prios.getD otherI 0 then
          resolvePass prios rest (cands.set otherI (cands.getD otherI []).tail)
            ((top, i) :: tops) true ws
        else
          resolvePass prios rest (cands.set i ((top ++ strBytes "-1") :: tl))
            ((top ++ strBytes "-1", i) :: tops) true
            (ws ++ [(i, otherI, top, top ++ strBytes "-1")])

/-- The outer `for` loop around the pass (main.go:828-868): repeat passes
until one reports no conflict.  `none` is exhausted fuel (a model
artifact: the source loop has no bound), `some none` the fatal error,
`some (some _)` successful completion with the final candidate lists and
warnings. -/
def resolveLoop (prios : List Int) :
    Nat → List (List GoStr) → List BnWarn →
    Option (Option (List (List GoStr) × List BnWarn))
  | 0, _, _ => none
  | fuel + 1, cands, ws =>
    match resolvePass prios (List.range cands.length) cands [] false ws with
    | none => some none
    | some (cands2, fc, ws2) =>
      if fc then resolveLoop prios fuel cands2 ws2 else some (some (cands2, ws2))

theorem resolvePass_fc_true (prios : List Int) :
    ∀ (idxs : List Nat) (cands : List (List GoStr)) (tops : List (GoStr × Nat))
      (ws : List BnWarn) (out : List (List GoStr) × Bool × List BnWarn),
      resolvePass prios idxs cands tops true ws = some out → out.2.1 = true := by
  intro idxs
  induction idxs with
  | nil =>
    intro cands tops ws out h
    simp only [resolvePass] at h
    injection h with h'
    subst h'; rfl
  | cons i rest ih =>
    intro cands tops ws out h
    cases hcy : cands.getD i [] with
    | nil =>
      simp only [resolvePass, hcy] at h
      exact Option.noConfusion h
    | cons top tl =>
      cases hl : alookup tops top with
      | none =>
        simp only [resolvePass, hcy, hl] at h
        exact ih cands _ ws out h
      | some otherI =>
        simp only [resolvePass, hcy, hl] at h
        by_cases h1 : prios.getD otherI 0 < prios.getD i 0
        · rw [if_pos h1] at h; exact ih _ _ ws out h
        · rw [if_neg h1] at h
          by_cases h2 : prios.getD i 0 < prios.getD otherI 0
          · rw [if_pos h2] at h; exact ih _ _ ws out h
          · rw [if_neg h2] at h; exact ih _ _ _ out h

theorem resolvePass_no_conflict (prios : List Int) :
    ∀ (idxs : List Nat) (cands : List (List GoStr)) (tops : List (GoStr × Nat))
      (ws : List BnWarn) (c2 : List (List GoStr)) (ws2 : List BnWarn),
      resolvePass prios idxs cands tops false ws = some (c2, false, ws2) →
      c2 = cands ∧ ws2 = ws ∧
      (idxs.map (fun i => (cands.getD i []).headD [])).Nodup ∧
      ∀ i ∈ idxs, alookup tops ((cands.getD i []).headD []) = none := by
  intro idxs
  induction idxs with
  | nil =>
    intro cands tops ws c2 ws2 h
    simp only [resolvePass] at h
    injection h with h'
    refine ⟨?_, ?_, by simp, by simp⟩
    · exact (congrArg Prod.fst h').symm
    · exact (congrArg (fun x => x.2.2) h').symm
  | cons i rest ih =>
    intro cands tops ws c2 ws2 h
    cases hcy : cands.getD i [] with
    | nil =>
      simp only [resolvePass, hcy] at h
      exact Option.noConfusion h
    | cons top tl =>
      cases hl : alookup tops top with
      | some otherI =>
        simp only [resolvePass, hcy, hl] at h
        exfalso
        by_cases h1 : prios.getD otherI 0 < prios.getD i 0
        · rw [if_pos h1] at h
          have := resolvePass_fc_true prios rest _ _ ws _ h
          simp at this
        · rw [if_neg h1] at h
          by_cases h2 : prios.getD i 0 < prios.getD otherI 0
          · rw [if_pos h2] at h
            have := resolvePass_fc_true prios rest _ _ ws _ h
            simp at this
          · rw [if_neg h2] at h
            have := resolvePass_fc_true prios rest _ _ _ _ h
            simp at this
      | none =>
        simp only [resolvePass, hcy, hl] at h
        obtain ⟨hc, hw, hnd, hfr⟩ := ih cands ((top, i) :: tops) ws c2 ws2 h
        have hhead : ∀ j ∈ rest, top ≠ (cands.getD j []).headD [] ∧
            alookup tops ((cands.getD j []).headD []) = none := by
          intro j hj
          have := hfr j hj
          simp only [alookup] at this
          by_cases he : top = (cands.getD j []).headD []
          · rw [if_pos he] at this; exact absurd this (by simp)
          · rw [if_neg he] at this; exact ⟨he, this⟩
        refine ⟨hc, hw, ?_, ?_⟩
        · simp only [List.map_cons, List.nodup_cons]
          constructor
          · intro hmem
            simp only [List.mem_map] at hmem
            obtain ⟨j, hj, hje⟩ := hmem
            exact (hhead j hj).1 ((hje.trans (by rw [hcy]; simp)).symm)
          · exact hnd
        · intro j hj
          rcases List.mem_cons.mp hj with hj' | hj'
          · subst hj'; rw [hcy]; exact hl
          · exact (hhead j hj').2

theorem map_range_getD {α β : Type} (g : α → β) (d : α) :
    ∀ l : List α, (List.range l.length).map (fun i => g (l.getD i d)) = l.map g := by
  intro l
  induction l with
  | nil => simp
  | cons a t ih =>
    rw [List.length_cons, List.range_succ_eq_map, List.map_cons, List.map_map]
    refine congrArg₂ _ (by simp) ?_
    calc (List.range t.length).map ((fun i => g ((a :: t).getD i d)) ∘ Nat.succ)
        = (List.range t.length).map (fun i => g (t.getD i d)) := by
          refine List.map_congr_left ?_
          intro i _
          simp [List.getD_cons_succ]
      _ = t.map g := ih

/-- C2: if the binding-naming loop of `TryRun` (main.go:828-872)
completes without a fatal error, the final display names — the head of
each binding's remaining candidate list, which the source then reads
into `bindingNames` — are pairwise distinct. -/
theorem bindingNamer_final_names_distinct (prios : List Int) :
    ∀ (fuel : Nat) (cands : List (List GoStr)) (ws : List BnWarn)
      (c2 : List (List GoStr)) (ws2 : List BnWarn),
      resolveLoop prios fuel cands ws = some (some (c2, ws2)) →
      (c2.map (fun l => l.headD [])).Nodup := by
  intro fuel
  induction fuel with
  | zero => intro cands ws c2 ws2 h; exact Option.noConfusion h
  | succ fuel ih =>
    intro cands ws c2 ws2 h
    simp only [resolveLoop] at h
    cases hp : resolvePass prios (List.range cands.length) cands [] false ws with
    | none =>
      rw [hp] at h
      simp at h
    | some out =>
      obtain ⟨c3, fc, ws3⟩ := out
      rw [hp] at h
      by_cases hfc : fc = true
      · rw [hfc] at h
        simp only [if_true] at h
        exact ih c3 ws3 c2 ws2 h
      · have hfc' : fc = false := by simpa using hfc
        subst hfc'
        simp only [Bool.false_eq_true, if_false, Option.some.injEq, Prod.mk.injEq] at h
        obtain ⟨he1, he2⟩ := h
        subst he1
        subst he2
        obtain ⟨hc, -, hnd, -⟩ :=
          resolvePass_no_conflict prios (List.range cands.length) cands [] ws _ _ hp
        rw [map_range_getD (fun l => l.headD []) [] cands] at hnd
        rw [hc]
        exact hnd

/-- Witness for C2 on a concrete two-binding conflict resolved by
priority. -/
theorem bindingNamer_final_names_distinct_witness :
    resolveLoop [0, 1] 3 [[strBytes "a"], [strBytes "a", strBytes "b"]] [] =
      some (some ([[strBytes "a"], [strBytes "b"]], [])) ∧
    (([[strBytes "a"], [strBytes "b"]] : List (List GoStr)).map (fun l => l.headD [])).Nodup :=
  ⟨by decide,
   bindingNamer_final_names_distinct [0, 1] 3 [[strBytes "a"], [strBytes "a", strBytes "b"]]
     [] [[strBytes "a"], [strBytes "b"]] [] (by decide)⟩

/-- C7: an equal-priority collision (main.go:846-859).  When binding `i`
collides with the earlier-registered (first-seen) binding `otherI` at
the same priority, the pass keeps `otherI` untouched, force-renames `i`
by appending the fixed suffix `"-1"` to its current top candidate,
registers the new name, appends a non-fatal warning carrying both
conflicting bindings and the old/new names, and continues with the rest
of the pass (it never aborts). -/
theorem bindingNamer_priority_tie_rename (prios : List Int) (i otherI : Nat)
    (rest : List Nat) (cands : List (List GoStr)) (tops : List (GoStr × Nat))
    (fc : Bool) (ws : List BnWarn) (top : GoStr) (tl : List GoStr)
    (hc : cands.getD i [] = top :: tl)
    (hl : alookup tops top = some otherI)
    (hp : prios.getD i 0 = prios.getD otherI 0) :
    resolvePass prios (i :: rest) cands tops fc ws =
      resolvePass prios rest (cands.set i ((top ++ strBytes "-1") :: tl))
        ((top ++ strBytes "-1", i) :: tops) true
        (ws ++ [(i, otherI, top, top ++ strBytes "-1")]) := by
  simp only [resolvePass, hc, hl]
  rw [if_neg (by omega : ¬ prios.getD otherI 0 < prios.getD i 0),
      if_neg (by omega : ¬ prios.getD i 0 < prios.getD otherI 0)]

/-- Witness for C7: two bindings both named `"a"` at priority 0. -/
theorem bindingNamer_priority_tie_rename_witness :
    resolvePass [0, 0] [1] [[strBytes "a"], [strBytes "a"]] [(strBytes "a", 0)] false [] =
      resolvePass [0, 0] [] [[strBytes "a"], [strBytes "a" ++ strBytes "-1"]]
        ((strBytes "a" ++ strBytes "-1", 1) :: [(strBytes "a", 0)]) true
        ([] ++ [(1, 0, strBytes "a", strBytes "a" ++ strBytes "-1")]) := by
  have h := bindingNamer_priority_tie_rename [0, 0] 1 0 [] [[strBytes "a"], [strBytes "a"]]
    [(strBytes "a", 0)] false [] (strBytes "a") [] (by decide) (by decide) (by decide)
  simpa using h

/-- `resolvePass` instrumented with a ghost collision log: identical to
the source pass, except that the pair of binding indices involved in a
collision is also recorded in every one of the three conflict branches.
The log is specification-only (it lets us state which bindings a given
binding "collides with at any point during name resolution");
`resolvePassL_erase_log` proves that erasing the log recovers the
uninstrumented translation `resolvePass`. -/
def resolvePassL (prios : List Int) :
    List Nat → List (List GoStr) → List (GoStr × Nat) → Bool → List BnWarn →
    List (Nat × Nat) →
    Option (List (List GoStr) × Bool × List BnWarn × List (Nat × Nat))
  | [], cands, _, fc, ws, log => some (cands, fc, ws, log)
  | i :: rest, cands, tops, fc, ws, log =>
    match cands.getD i [] with
    | [] => none
    | top :: tl =>
      match alookup tops top with
      | none => resolvePassL prios rest cands ((top, i) :: tops) fc ws log
      | some otherI =>
        if prios.getD otherI 0 < prios.getD i 0 then
          resolvePassL prios rest (cands.set i tl) ((top, otherI) :: tops) true ws
            (log ++ [(i, otherI)])
        else if prios.getD i 0 < prios.getD otherI 0 then
          resolvePassL prios rest (cands.set otherI (cands.getD otherI []).tail)
            ((top, i) :: tops) true ws (log ++ [(i, otherI)])
        else
          resolvePassL prios rest (cands.set i ((top ++ strBytes "-1") :: tl))
            ((top ++ strBytes "-1", i) :: tops) true
            (ws ++ [(i, otherI, top, top ++ strBytes "-1")]) (log ++ [(i, otherI)])

/-- Outer loop over the instrumented pass. -/
def resolveLoopL (prios : List Int) :
    Nat → List (List GoStr) → List BnWarn → List (Nat × Nat) →
    Option (Option (List (List GoStr) × List BnWarn × List (Nat × Nat)))
  | 0, _, _, _ => none
  | fuel + 1, cands, ws, log =>
    match resolvePassL prios (List.range cands.length) cands [] false ws log with
    | none => some none
    | some (cands2, fc, ws2, log2) =>
      if fc then resolveLoopL prios fuel cands2 ws2 log2
      else some (some (cands2, ws2, log2))

/-- Erasing the ghost collision log from the instrumented pass yields
exactly the uninstrumented pass. -/
theorem resolvePassL_erase_log (prios : List Int) :
    ∀ (idxs : List Nat) (cands : List (List GoStr)) (tops : List (GoStr × Nat))
      (fc : Bool) (ws : List BnWarn) (log : List (Nat × Nat)),
      (resolvePassL prios idxs cands tops fc ws log).map (fun r => (r.1, r.2.1, r.2.2.1)) =
        resolvePass prios idxs cands tops fc ws := by
  intro idxs
  induction idxs with
  | nil => intro cands tops fc ws log; rfl
  | cons i rest ih =>
    intro cands tops fc ws log
    cases hcy : cands.getD i [] with
    | nil => simp only [resolvePassL, resolvePass, hcy]; rfl
    | cons top tl =>
      cases hl : alookup tops top with
      | none => simp only [resolvePassL, resolvePass, hcy, hl]; exact ih _ _ fc ws log
      | some otherI =>
        simp only [resolvePassL, resolvePass, hcy, hl]
        by_cases h1 : prios.getD otherI 0 < prios.getD i 0
        · rw [if_pos h1, if_pos h1]; exact ih _ _ true ws _
        · rw [if_neg h1, if_neg h1]
          by_cases h2 : prios.getD i 0 < prios.getD otherI 0
          · rw [if_pos h2, if_pos h2]; exact ih _ _ true ws _
          · rw [if_neg h2, if_neg h2]; exact ih _ _ true _ _

theorem resolvePassL_log_mono (prios : List Int) :
    ∀ (idxs : List Nat) (cands : List (List GoStr)) (tops : List (GoStr × Nat))
      (fc : Bool) (ws : List BnWarn) (log : List (Nat × Nat))
      (out : List (List GoStr) × Bool × List BnWarn × List (Nat × Nat)),
      resolvePassL prios idxs cands tops fc ws log = some out →
      ∀ p ∈ log, p ∈ out.2.2.2 := by
  intro idxs
  induction idxs with
  | nil =>
    intro cands tops fc ws log out h p hp
    simp only [resolvePassL] at h
    injection h with h'
    subst h'
    exact hp
  | cons i rest ih =>
    intro cands tops fc ws log out h p hp
    cases hcy : cands.getD i [] with
    | nil =>
      simp only [resolvePassL, hcy] at h
      exact Option.noConfusion h
    | cons top tl =>
      cases hl : alookup tops top with
      | none =>
        simp only [resolvePassL, hcy, hl] at h
        exact ih _ _ fc ws log out h p hp
      | some otherI =>
        simp only [resolvePassL, hcy, hl] at h
        by_cases h1 : prios.getD otherI 0 < prios.getD i 0
        · rw [if_pos h1] at h
          exact ih _ _ true ws _ out h p (by simp [hp])
        · rw [if_neg h1] at h
          by_cases h2 : prios.getD i 0 < prios.getD otherI 0
          · rw [if_pos h2] at h
            exact ih _ _ true ws _ out h p (by simp [hp])
          · rw [if_neg h2] at h
            exact ih _ _ true _ _ out h p (by simp [hp])

theorem getD_set_ne {α : Type} (l : List α) (x i : Nat) (v d : α) (h : x ≠ i) :
    (l.set x v).getD i d = l.getD i d := by
  rw [List.getD_eq_getElem?_getD, List.getD_eq_getElem?_getD, List.getElem?_set_ne h]

theorem resolvePassL_keeps (prios : List Int) (i : Nat) :
    ∀ (idxs : List Nat) (cands : List (List GoStr)) (tops : List (GoStr × Nat))
      (fc : Bool) (ws : List BnWarn) (log : List (Nat × Nat))
      (out : List (List GoStr) × Bool × List BnWarn × List (Nat × Nat)),
      resolvePassL prios idxs cands tops fc ws log = some out →
      (∀ p ∈ out.2.2.2, (p.1 = i → prios.getD i 0 < prios.getD p.2 0) ∧
                        (p.2 = i → prios.getD i 0 < prios.getD p.1 0)) →
      out.1.getD i [] = cands.getD i [] := by
  intro idxs
  induction idxs with
  | nil =>
    intro cands tops fc ws log out h hmin
    simp only [resolvePassL] at h
    injection h with h'
    subst h'
    rfl
  | cons j rest ih =>
    intro cands tops fc ws log out h hmin
    cases hcy : cands.getD j [] with
    | nil =>
      simp only [resolvePassL, hcy] at h
      exact Option.noConfusion h
    | cons top tl =>
      cases hl : alookup tops top with
      | none =>
        simp only [resolvePassL, hcy, hl] at h
        exact ih cands _ fc ws log out h hmin
      | some otherI =>
        simp only [resolvePassL, hcy, hl] at h
        by_cases h1 : prios.getD otherI 0 < prios.getD j 0
        · rw [if_pos h1] at h
          have hpj : (j, otherI) ∈ out.2.2.2 :=
            resolvePassL_log_mono prios rest _ _ true ws _ out h (j, otherI) (by simp)
          have hne : j ≠ i := by
            intro he
            have hx : prios.getD i 0 < prios.getD otherI 0 := (hmin (j, otherI) hpj).1 he
            rw [he] at h1
            omega
          rw [ih _ _ true ws _ out h hmin]
          exact getD_set_ne cands j i _ [] hne
        · rw [if_neg h1] at h
          by_cases h2 : prios.getD j 0 < prios.getD otherI 0
          · rw [if_pos h2] at h
            have hpj : (j, otherI) ∈ out.2.2.2 :=
              resolvePassL_log_mono prios rest _ _ true ws _ out h (j, otherI) (by simp)
            have hne : otherI ≠ i := by
              intro he
              have hx : prios.getD i 0 < prios.getD j 0 := (hmin (j, otherI) hpj).2 he
              rw [he] at h2
              omega
            rw [ih _ _ true ws _ out h hmin]
            exact getD_set_ne cands otherI i _ [] hne
          · rw [if_neg h2] at h
            have hpj : (j, otherI) ∈ out.2.2.2 :=
              resolvePassL_log_mono prios rest _ _ true _ _ out h (j, otherI) (by simp)
            have hne : j ≠ i := by
              intro he
              have hx : prios.getD i 0 < prios.getD otherI 0 := (hmin (j, otherI) hpj).1 he
              rw [he] at h2
              omega
            rw [ih _ _ true _ _ out h hmin]
            exact getD_set_ne cands j i _ [] hne

theorem resolveLoopL_log_mono (prios : List Int) :
    ∀ (fuel : Nat) (cands : List (List GoStr)) (ws : List BnWarn)
      (log : List (Nat × Nat)) (out : List (List GoStr) × List BnWarn × List (Nat × Nat)),
      resolveLoopL prios fuel cands ws log = some (some out) →
      ∀ p ∈ log, p ∈ out.2.2 := by
  intro fuel
  induction fuel with
  | zero => intro cands ws log out h; exact Option.noConfusion h
  | succ fuel ih =>
    intro cands ws log out h p hp
    simp only [resolveLoopL] at h
    cases hpass : resolvePassL prios (List.range cands.length) cands [] false ws log with
    | none => rw [hpass] at h; simp at h
    | some r =>
      obtain ⟨c2, fc, ws2, log2⟩ := r
      rw [hpass] at h
      have hsub : p ∈ log2 :=
        resolvePassL_log_mono prios (List.range cands.length) cands [] false ws log
          (c2, fc, ws2, log2) hpass p hp
      by_cases hfc : fc = true
      · rw [hfc] at h
        simp only [if_true] at h
        exact ih c2 ws2 log2 out h p hsub
      · have hfc' : fc = false := by simpa using hfc
        subst hfc'
        simp only [Bool.false_eq_true, if_false, Option.some.injEq] at h
        rw [← h]
        exact hsub

theorem resolveLoopL_keeps (prios : List Int) (i : Nat) :
    ∀ (fuel : Nat) (cands : List (List GoStr)) (ws : List BnWarn)
      (log : List (Nat × Nat)) (out : List (List GoStr) × List BnWarn × List (Nat × Nat)),
      resolveLoopL prios fuel cands ws log = some (some out) →
      (∀ p ∈ out.2.2, (p.1 = i → prios.getD i 0 < prios.getD p.2 0) ∧
                      (p.2 = i → prios.getD i 0 < prios.getD p.1 0)) →
      out.1.getD i [] = cands.getD i [] := by
  intro fuel
  induction fuel with
  | zero => intro cands ws log out h; exact absurd h (by simp [resolveLoopL])
  | succ fuel ih =>
    intro cands ws log out h hmin
    simp only [resolveLoopL] at h
    cases hpass : resolvePassL prios (List.range cands.length) cands [] false ws log with
    | none => rw [hpass] at h; simp at h
    | some r =>
      obtain ⟨c2, fc, ws2, log2⟩ := r
      rw [hpass] at h
      by_cases hfc : fc = true
      · subst hfc
        simp only [if_true] at h
        have hmin2 : ∀ p ∈ log2, (p.1 = i → prios.getD i 0 < prios.getD p.2 0) ∧
            (p.2 = i → prios.getD i 0 < prios.getD p.1 0) := by
          intro p hp
          exact hmin p (resolveLoopL_log_mono prios fuel c2 ws2 log2 out h p hp)
        have hpassKeep := resolvePassL_keeps prios i (List.range cands.length) cands [] false
          ws log (c2, true, ws2, log2) hpass hmin2
        rw [ih c2 ws2 log2 out h hmin]
        exact hpassKeep
      · have hfc' : fc = false := by simpa using hfc
        subst hfc'
        simp only [Bool.false_eq_true, if_false, Option.some.injEq] at h
        subst h
        exact resolvePassL_keeps prios i (List.range cands.length) cands [] false ws log
          (c2, false, ws2, log2) hpass hmin

theorem getD_map_headD :
    ∀ (l : List (List GoStr)) (i : Nat),
      (l.map (fun x => x.headD [])).getD i [] = (l.getD i []).headD [] := by
  intro l
  induction l with
  | nil => intro i; simp
  | cons a t ih =>
    intro i
    cases i with
    | zero => rfl
    | succ n => simpa using ih n

/-- C3: a binding whose priority is strictly lower (numerically) than
that of every binding it collides with at any point during name
resolution keeps its first-choice name.  Collisions are read off the
ghost log of the instrumented loop (`resolveLoopL`), which coincides
with the source loop by `resolvePassL_erase_log`; the conclusion equates
binding `i`'s final display name with the head of its initial candidate
list (main.go:836-845: in every conflict involving `i` the other side's
candidate is popped, never `i`'s). -/
theorem bindingNamer_lowest_priority_keeps_first_choice (prios : List Int)
    (fuel : Nat) (cands c2 : List (List GoStr)) (ws2 : List BnWarn)
    (log2 : List (Nat × Nat)) (i : Nat)
    (hrun : resolveLoopL prios fuel cands [] [] = some (some (c2, ws2, log2)))
    (hmin : ∀ p ∈ log2, (p.1 = i → prios.getD i 0 < prios.getD p.2 0) ∧
                        (p.2 = i → prios.getD i 0 < prios.getD p.1 0)) :
    (c2.map (fun l => l.headD [])).getD i [] = (cands.getD i []).headD [] := by
  have hk := resolveLoopL_keeps prios i fuel cands [] [] (c2, ws2, log2) hrun hmin
  rw [getD_map_headD, hk]

/-- Witness for C3: binding 1 has the strictly lowest priority among its
collision partners and keeps its first-choice name `"a"`. -/
theorem bindingNamer_lowest_priority_keeps_first_choice_witness :
    resolveLoopL [1, 0] 3 [[strBytes "a", strBytes "x"], [strBytes "a"]] [] [] =
      some (some ([[strBytes "x"], [strBytes "a"]], [], [(1, 0)])) ∧
    (([[strBytes "x"], [strBytes "a"]] : List (List GoStr)).map
        (fun l => l.headD [])).getD 1 [] =
      (([[strBytes "a", strBytes "x"], [strBytes "a"]] :
          List (List GoStr)).getD 1 []).headD [] :=
  ⟨by decide,
   bindingNamer_lowest_priority_keeps_first_choice [1, 0] 3
     [[strBytes "a", strBytes "x"], [strBytes "a"]] [[strBytes "x"], [strBytes "a"]]
     [] [(1, 0)] 1 (by decide) (by decide)⟩

theorem pairwise_perm_eq {α : Type} {r : α → α → Prop} :
    ∀ (l₁ l₂ : List α), l₁.Perm l₂ →
      (∀ a ∈ l₁, ∀ b ∈ l₁, r a b → r b a → a = b) →
      l₁.Pairwise r → l₂.Pairwise r → l₁ = l₂ := by
  intro l₁
  induction l₁ with
  | nil =>
    intro l₂ hp _ _ _
    exact (hp.symm.eq_nil).symm
  | cons a t1 ih =>
    intro l₂ hp ha hpw1 hpw2
    cases l₂ with
    | nil => exact absurd hp.eq_nil (by simp)
    | cons b t2 =>
      have hab : a = b := by
        by_cases he : a = b
        · exact he
        · have hain2 : a ∈ b :: t2 := hp.mem_iff.mp (by simp)
          have hbin1 : b ∈ a :: t1 := hp.mem_iff.mpr (by simp)
          have ha2 : a ∈ t2 := by
            rcases List.mem_cons.mp hain2 with h' | h'
            · exact absurd h' he
            · exact h'
          have hb1 : b ∈ t1 := by
            rcases List.mem_cons.mp hbin1 with h' | h'
            · exact absurd h'.symm he
            · exact h'
          have hrab : r a b := (List.pairwise_cons.mp hpw1).1 b hb1
          have hrba : r b a := (List.pairwise_cons.mp hpw2).1 a ha2
          exact ha a (by simp) b (by simp [hb1]) hrab hrba
      subst hab
      have hperm : t1.Perm t2 := hp.cons_inv
      rw [ih t2 hperm
        (fun x hx y hy => ha x (List.mem_cons_of_mem a hx) y (List.mem_cons_of_mem a hy))
        (List.pairwise_cons.mp hpw1).2 (List.pairwise_cons.mp hpw2).2]

/-- Go's `slices.Index`: index of the first occurrence, or -1. -/
def goSlicesIndex : List GoStr → GoStr → Int
  | [], _ => -1
  | y :: t, x =>
    if y = x then 0
    else if goSlicesIndex t x = -1 then -1 else goSlicesIndex t x + 1

/-- `math.MaxInt` on a 64-bit platform. -/
def goMaxInt : Int := 9223372036854775807

/-- Name priority of one binding (main.go:817-824): the index of its
module path in `cfg.NoPrefix`, or `math.MaxInt` when absent. -/
def namePrio (noPfx : List GoStr) (modPath : GoStr) : Int :=
  if goSlicesIndex noPfx modPath = -1 then goMaxInt else goSlicesIndex noPfx modPath

/-- One generated binding as the Binding Namer sees it: its stable
unique key (`bind.UniqueName(ctx)`) and the module path of its file
(`bind.File.ModulePath`).  The candidate-name lists produced by the
external `RyeifiedNameCandidates` are abstracted as a function
parameter. -/
structure BindingFunc where
  uniqueName : GoStr
  modulePath : GoStr
deriving DecidableEq

/-- The binding-naming stage of `TryRun` (main.go:815-872) as a function
of the sorted binding list: per-binding priorities (main.go:817-824),
candidate lists (main.go:825-828, abstracted as `candsOf`), then the
conflict-resolution loop. -/
def bindingNamesOf (noPfx : List GoStr) (candsOf : BindingFunc → List GoStr)
    (fuel : Nat) (sortedBindings : List BindingFunc) :
    Option (Option (List (List GoStr) × List BnWarn)) :=
  resolveLoop (sortedBindings.map (fun b => namePrio noPfx b.modulePath)) fuel
    (sortedBindings.map candsOf) []

/-- C4: two-run determinism of the naming stages.  A Go `map` iterates
in unspecified order; a run is modelled as (1) some permutation
`keys₁`/`keys₂` of the module-path set, sorted by `slices.SortFunc`
(whose contract only promises a permutation `s₁`/`s₂` of its input that
is pairwise-ordered by the comparator), feeding `assignUniqueNames`; and
(2) some pairwise-ordered permutation `t₁`/`t₂` of the binding list
produced by `slices.SortedFunc` with the `UniqueName` comparator
(main.go:811-813), feeding the Binding Namer.  Because the module-path
comparator is antisymmetric, and the unique keys are pairwise distinct,
both sorted sequences — and hence all assigned module names and final
binding names — coincide between the two runs. -/
theorem naming_two_run_determinism (p : GoStr) (toSnakeF defNames : GoStr → GoStr)
    (keys₁ keys₂ s₁ s₂ : List GoStr)
    (hk : keys₁.Perm keys₂)
    (hp1 : s₁.Perm keys₁)
    (hs1 : List.Pairwise (fun a b => compareModulePaths p a b ≤ 0) s₁)
    (hp2 : s₂.Perm keys₂)
    (hs2 : List.Pairwise (fun a b => compareModulePaths p a b ≤ 0) s₂)
    (noPfx : List GoStr) (candsOf : BindingFunc → List GoStr) (fuel : Nat)
    (binds t₁ t₂ : List BindingFunc)
    (hb1 : t₁.Perm binds) (hb2 : t₂.Perm binds)
    (hnodup : (binds.map BindingFunc.uniqueName).Nodup)
    (ht1 : List.Pairwise (fun b₁ b₂ => goCompare b₁.uniqueName b₂.uniqueName ≤ 0) t₁)
    (ht2 : List.Pairwise (fun b₁ b₂ => goCompare b₁.uniqueName b₂.uniqueName ≤ 0) t₂) :
    assignUniqueNames toSnakeF defNames s₁ [] [] = assignUniqueNames toSnakeF defNames s₂ [] [] ∧
    bindingNamesOf noPfx candsOf fuel t₁ = bindingNamesOf noPfx candsOf fuel t₂ := by
  have hs : s₁ = s₂ := by
    refine pairwise_perm_eq s₁ s₂ (hp1.trans (hk.trans hp2.symm)) ?_ hs1 hs2
    intro a _ b _ hab hba
    exact compareModulePaths_antisymm hab hba
  have ht : t₁ = t₂ := by
    refine pairwise_perm_eq t₁ t₂ (hb1.trans hb2.symm) ?_ ht1 ht2
    intro a hat b hbt hab hba
    have huq : a.uniqueName = b.uniqueName := by
      have h0 : goCompare a.uniqueName b.uniqueName = 0 := by
        have := goCompare_swap a.uniqueName b.uniqueName
        omega
      exact goCompare_eq_zero h0
    exact List.inj_on_of_nodup_map hnodup (hb1.mem_iff.mp hat) (hb1.mem_iff.mp hbt) huq
  exact ⟨by rw [hs], by rw [ht]⟩

/-- Witness for C4 on concrete two-element inputs. -/
theorem naming_two_run_determinism_witness :
    assignUniqueNames toSnakeModel (fun _ => strBytes "a")
        [strBytes "fmt", strBytes "example.com/x"] [] [] =
      assignUniqueNames toSnakeModel (fun _ => strBytes "a")
        [strBytes "fmt", strBytes "example.com/x"] [] [] ∧
    bindingNamesOf [] (fun b => [b.uniqueName]) 2
        [⟨strBytes "a", strBytes "m"⟩, ⟨strBytes "b", strBytes "m"⟩] =
      bindingNamesOf [] (fun b => [b.uniqueName]) 2
        [⟨strBytes "a", strBytes "m"⟩, ⟨strBytes "b", strBytes "m"⟩] :=
  naming_two_run_determinism [] toSnakeModel (fun _ => strBytes "a")
    [strBytes "example.com/x", strBytes "fmt"] [strBytes "fmt", strBytes "example.com/x"]
    [strBytes "fmt", strBytes "example.com/x"] [strBytes "fmt", strBytes "example.com/x"]
    (List.Perm.swap _ _ _) (List.Perm.swap _ _ _) (by decide)
    (List.Perm.refl _) (by decide)
    [] (fun b => [b.uniqueName]) 2
    [⟨strBytes "a", strBytes "m"⟩, ⟨strBytes "b", strBytes "m"⟩]
    [⟨strBytes "a", strBytes "m"⟩, ⟨strBytes "b", strBytes "m"⟩]
    [⟨strBytes "a", strBytes "m"⟩, ⟨strBytes "b", strBytes "m"⟩]
    (List.Perm.refl _) (List.Perm.refl _) (by decide) (by decide) (by decide)

/-- Insertion of newly required keys into the request map
`deps.GenericInterfaceImpls` (a Go map: inserting an existing key is a
no-op for the key set). -/
def addNew (reqs ks : List GoStr) : List GoStr :=
  ks.foldl (fun r k => if k ∈ r then r else r ++ [k]) reqs

def insertStr (k : GoStr) : List GoStr → List GoStr
  | [] => [k]
  | x :: xs => if goLess k x then k :: x :: xs else x :: insertStr k xs

/-- `sortedMapAll` key snapshot (main.go:130-143): the map's keys,
sorted ascending (`slices.Sort`).  Written as insertion sort, which is
extensionally the same sorted permutation the Go sort produces. -/
def sortStrs (l : List GoStr) : List GoStr := l.foldr insertStr []

/-- One scan of the generic-interface-impl fixpoint loop
(main.go:466-484): iterate the snapshot of request keys; skip keys that
already have an implementation; otherwise invoke the synthesizer
(`binder.GenerateGenericInterfaceImpl`, abstracted as `synth`, returning
the newly required keys it adds to `deps.GenericInterfaceImpls`, or
`none` on error, which is fatal for the whole run), record the key as
implemented, and set `addedImpl`. -/
def scanIfaceImpls (synth : GoStr → Option (List GoStr)) :
    List GoStr → List GoStr → List GoStr → Bool →
    Option (List GoStr × List GoStr × Bool)
  | [], reqs, res, added => some (reqs, res, added)
  | k :: ks, reqs, res, added =>
    if k ∈ res then scanIfaceImpls synth ks reqs res added
    else
      match synth k with
      | none => none
      | some newKeys => scanIfaceImpls synth ks (addNew reqs newKeys) (res ++ [k]) true

/-- The outer `for` of the closure (main.go:465-484): rescan until a
full scan adds no implementation (`addedImpl` stays false — the exit
condition), with `none` = exhausted fuel (model artifact; the source
loop is unbounded) and `some none` = fatal synthesis error. -/
def closureLoop (synth : GoStr → Option (List GoStr)) :
    Nat → List GoStr → List GoStr → Option (Option (List GoStr))
  | 0, _, _ => none
  | fuel + 1, reqs, res =>
    match scanIfaceImpls synth (sortStrs reqs) reqs res false with
    | none => some none
    | some (reqs2, res2, added) =>
      if added then closureLoop synth fuel reqs2 res2 else some (some res2)

/-- Keys reachable from the initial request set through the
synthesizer's "requires" edges. -/
inductive Reaches (synth : GoStr → Option (List GoStr)) (init : List GoStr) : GoStr → Prop
  | base {k} : k ∈ init → Reaches synth init k
  | step {k k' ks} : Reaches synth init k → synth k = some ks → k' ∈ ks →
      Reaches synth init k'

theorem mem_insertStr (k x : GoStr) : ∀ l, x ∈ insertStr k l ↔ x = k ∨ x ∈ l := by
  intro l
  induction l with
  | nil => simp [insertStr]
  | cons y ys ih =>
    by_cases h : goLess k y
    · simp [insertStr, h]
    · have h' : goLess k y = false := by simpa using h
      simp only [insertStr, h', Bool.false_eq_true, if_false, List.mem_cons, ih]
      tauto

theorem mem_sortStrs (x : GoStr) : ∀ l, x ∈ sortStrs l ↔ x ∈ l := by
  intro l
  induction l with
  | nil => simp [sortStrs]
  | cons y ys ih =>
    simp only [sortStrs, List.foldr_cons] at ih ⊢
    rw [mem_insertStr, ih, List.mem_cons]

theorem mem_addNew (x : GoStr) : ∀ ks reqs, x ∈ addNew reqs ks ↔ x ∈ reqs ∨ x ∈ ks := by
  intro ks
  induction ks with
  | nil => simp [addNew]
  | cons k kt ih =>
    intro reqs
    simp only [addNew, List.foldl_cons] at ih ⊢
    rw [ih]
    constructor
    · intro hx
      rcases hx with hx | hx
      · by_cases h : k ∈ reqs
        · rw [if_pos h] at hx; exact Or.inl hx
        · rw [if_neg h] at hx
          rcases List.mem_append.mp hx with hx | hx
          · exact Or.inl hx
          · simp only [List.mem_singleton] at hx
            subst hx
            exact Or.inr (by simp)
      · exact Or.inr (List.mem_cons_of_mem _ hx)
    · intro hx
      rcases hx with hx | hx
      · by_cases h : k ∈ reqs
        · rw [if_pos h]; exact Or.inl hx
        · rw [if_neg h]; exact Or.inl (List.mem_append.mpr (Or.inl hx))
      · rcases List.mem_cons.mp hx with hx | hx
        · by_cases h : k ∈ reqs
          · rw [if_pos h]; exact Or.inl (hx ▸ h)
          · rw [if_neg h]; exact Or.inl (List.mem_append.mpr (Or.inr (by simp [hx])))
        · exact Or.inr hx

theorem scan_added_true (synth : GoStr → Option (List GoStr)) :
    ∀ (snap reqs res : List GoStr) (out : List GoStr × List GoStr × Bool),
      scanIfaceImpls synth snap reqs res true = some out → out.2.2 = true := by
  intro snap
  induction snap with
  | nil =>
    intro reqs res out h
    simp only [scanIfaceImpls] at h
    injection h with h'
    subst h'; rfl
  | cons k ks ih =>
    intro reqs res out h
    by_cases hm : k ∈ res
    · simp only [scanIfaceImpls, if_pos hm] at h
      exact ih reqs res out h
    · simp only [scanIfaceImpls, if_neg hm] at h
      cases hs : synth k with
      | none => rw [hs] at h; exact Option.noConfusion h
      | some newKeys => rw [hs] at h; exact ih _ _ out h

theorem scan_mono (synth : GoStr → Option (List GoStr)) :
    ∀ (snap reqs res : List GoStr) (added : Bool) (out : List GoStr × List GoStr × Bool),
      scanIfaceImpls synth snap reqs res added = some out →
      (∀ x ∈ reqs, x ∈ out.1) ∧ (∀ x ∈ res, x ∈ out.2.1) := by
  intro snap
  induction snap with
  | nil =>
    intro reqs res added out h
    simp only [scanIfaceImpls] at h
    injection h with h'
    subst h'
    exact ⟨fun x hx => hx, fun x hx => hx⟩
  | cons k ks ih =>
    intro reqs res added out h
    by_cases hm : k ∈ res
    · simp only [scanIfaceImpls, if_pos hm] at h
      exact ih reqs res added out h
    · simp only [scanIfaceImpls, if_neg hm] at h
      cases hs : synth k with
      | none => rw [hs] at h; exact Option.noConfusion h
      | some newKeys =>
        rw [hs] at h
        obtain ⟨h1, h2⟩ := ih _ _ true out h
        refine ⟨fun x hx => h1 x ((mem_addNew x newKeys reqs).mpr (Or.inl hx)), ?_⟩
        exact fun x hx => h2 x (List.mem_append.mpr (Or.inl hx))

theorem scan_reach (synth : GoStr → Option (List GoStr)) (init : List GoStr) :
    ∀ (snap reqs res : List GoStr) (added : Bool) (out : List GoStr × List GoStr × Bool),
      scanIfaceImpls synth snap reqs res added = some out →
      (∀ x ∈ snap, Reaches synth init x) →
      (∀ x ∈ reqs, Reaches synth init x) →
      (∀ x ∈ res, Reaches synth init x) →
      (∀ x ∈ out.1, Reaches synth init x) ∧ (∀ x ∈ out.2.1, Reaches synth init x) := by
  intro snap
  induction snap with
  | nil =>
    intro reqs res added out h _ hreq hres
    simp only [scanIfaceImpls] at h
    injection h with h'
    subst h'
    exact ⟨hreq, hres⟩
  | cons k ks ih =>
    intro reqs res added out h hsnap hreq hres
    by_cases hm : k ∈ res
    · simp only [scanIfaceImpls, if_pos hm] at h
      exact ih reqs res added out h (fun x hx => hsnap x (by simp [hx])) hreq hres
    · simp only [scanIfaceImpls, if_neg hm] at h
      cases hs : synth k with
      | none => rw [hs] at h; exact Option.noConfusion h
      | some newKeys =>
        rw [hs] at h
        refine ih _ _ true out h (fun x hx => hsnap x (by simp [hx])) ?_ ?_
        · intro x hx
          rcases (mem_addNew x newKeys reqs).mp hx with hx | hx
          · exact hreq x hx
          · exact Reaches.step (hsnap k (by simp)) hs hx
        · intro x hx
          rcases List.mem_append.mp hx with hx | hx
          · exact hres x hx
          · simp only [List.mem_singleton] at hx
            exact hx ▸ hsnap k (by simp)

theorem scan_closed (synth : GoStr → Option (List GoStr)) :
    ∀ (snap reqs res : List GoStr) (added : Bool) (out : List GoStr × List GoStr × Bool),
      scanIfaceImpls synth snap reqs res added = some out →
      (∀ kk ∈ res, ∀ ks, synth kk = some ks → ∀ x ∈ ks, x ∈ reqs) →
      (∀ kk ∈ out.2.1, ∀ ks, synth kk = some ks → ∀ x ∈ ks, x ∈ out.1) := by
  intro snap
  induction snap with
  | nil =>
    intro reqs res added out h hcl
    simp only [scanIfaceImpls] at h
    injection h with h'
    subst h'
    exact hcl
  | cons k ks ih =>
    intro reqs res added out h hcl
    by_cases hm : k ∈ res
    · simp only [scanIfaceImpls, if_pos hm] at h
      exact ih reqs res added out h hcl
    · simp only [scanIfaceImpls, if_neg hm] at h
      cases hs : synth k with
      | none => rw [hs] at h; exact Option.noConfusion h
      | some newKeys =>
        rw [hs] at h
        refine ih _ _ true out h ?_
        intro kk hkk ks2 hks2 x hx
        rcases List.mem_append.mp hkk with hkk | hkk
        · exact (mem_addNew x newKeys reqs).mpr (Or.inl (hcl kk hkk ks2 hks2 x hx))
        · simp only [List.mem_singleton] at hkk
          subst hkk
          rw [hs] at hks2
          injection hks2 with hks2'
          subst hks2'
          exact (mem_addNew x newKeys reqs).mpr (Or.inr hx)

theorem scan_inB (synth : GoStr → Option (List GoStr)) (B : List GoStr)
    (hB : ∀ kk ∈ B, ∀ x ∈ (synth kk).getD [], x ∈ B) :
    ∀ (snap reqs res : List GoStr) (added : Bool) (out : List GoStr × List GoStr × Bool),
      scanIfaceImpls synth snap reqs res added = some out →
      (∀ x ∈ snap, x ∈ B) → (∀ x ∈ reqs, x ∈ B) → (∀ x ∈ res, x ∈ B) →
      (∀ x ∈ out.1, x ∈ B) ∧ (∀ x ∈ out.2.1, x ∈ B) := by
  intro snap
  induction snap with
  | nil =>
    intro reqs res added out h _ hreq hres
    simp only [scanIfaceImpls] at h
    injection h with h'
    subst h'
    exact ⟨hreq, hres⟩
  | cons k ks ih =>
    intro reqs res added out h hsnap hreq hres
    by_cases hm : k ∈ res
    · simp only [scanIfaceImpls, if_pos hm] at h
      exact ih reqs res added out h (fun x hx => hsnap x (by simp [hx])) hreq hres
    · simp only [scanIfaceImpls, if_neg hm] at h
      cases hs : synth k with
      | none => rw [hs] at h; exact Option.noConfusion h
      | some newKeys =>
        rw [hs] at h
        refine ih _ _ true out h (fun x hx => hsnap x (by simp [hx])) ?_ ?_
        · intro x hx
          rcases (mem_addNew x newKeys reqs).mp hx with hx | hx
          · exact hreq x hx
          · have := hB k (hsnap k (by simp)) x
            rw [hs] at this
            exact this hx
        · intro x hx
          rcases List.mem_append.mp hx with hx | hx
          · exact hres x hx
          · simp only [List.mem_singleton] at hx
            exact hx ▸ hsnap k (by simp)

theorem scan_nodup (synth : GoStr → Option (List GoStr)) :
    ∀ (snap reqs res : List GoStr) (added : Bool) (out : List GoStr × List GoStr × Bool),
      scanIfaceImpls synth snap reqs res added = some out →
      res.Nodup → out.2.1.Nodup := by
  intro snap
  induction snap with
  | nil =>
    intro reqs res added out h hnd
    simp only [scanIfaceImpls] at h
    injection h with h'
    subst h'
    exact hnd
  | cons k ks ih =>
    intro reqs res added out h hnd
    by_cases hm : k ∈ res
    · simp only [scanIfaceImpls, if_pos hm] at h
      exact ih reqs res added out h hnd
    · simp only [scanIfaceImpls, if_neg hm] at h
      cases hs : synth k with
      | none => rw [hs] at h; exact Option.noConfusion h
      | some newKeys =>
        rw [hs] at h
        refine ih _ _ true out h ?_
        rw [List.nodup_append]
        exact ⟨hnd, by simp, fun a ha hak => hm (by simpa [List.mem_singleton.mp hak] using ha)⟩

theorem scan_growth (synth : GoStr → Option (List GoStr)) :
    ∀ (snap reqs res : List GoStr) (added : Bool) (out : List GoStr × List GoStr × Bool),
      scanIfaceImpls synth snap reqs res added = some out →
      res.length ≤ out.2.1.length ∧
        (out.2.2 = true → added = true ∨ res.length < out.2.1.length) := by
  intro snap
  induction snap with
  | nil =>
    intro reqs res added out h
    simp only [scanIfaceImpls] at h
    injection h with h'
    subst h'
    exact ⟨le_refl _, fun h2 => Or.inl (by simpa using h2)⟩
  | cons k ks ih =>
    intro reqs res added out h
    by_cases hm : k ∈ res
    · simp only [scanIfaceImpls, if_pos hm] at h
      exact ih reqs res added out h
    · simp only [scanIfaceImpls, if_neg hm] at h
      cases hs : synth k with
      | none => rw [hs] at h; exact Option.noConfusion h
      | some newKeys =>
        rw [hs] at h
        obtain ⟨hlen, -⟩ := ih _ _ true out h
        rw [List.length_append, List.length_singleton] at hlen
        exact ⟨by omega, fun _ => Or.inr (by omega)⟩

theorem scan_fixpoint (synth : GoStr → Option (List GoStr)) :
    ∀ (snap reqs res : List GoStr) (out : List GoStr × List GoStr × Bool),
      scanIfaceImpls synth snap reqs res false = some out → out.2.2 = false →
      out.1 = reqs ∧ out.2.1 = res ∧ ∀ k ∈ snap, k ∈ res := by
  intro snap
  induction snap with
  | nil =>
    intro reqs res out h hadd
    simp only [scanIfaceImpls] at h
    injection h with h'
    subst h'
    exact ⟨rfl, rfl, by simp⟩
  | cons k ks ih =>
    intro reqs res out h hadd
    by_cases hm : k ∈ res
    · simp only [scanIfaceImpls, if_pos hm] at h
      obtain ⟨h1, h2, h3⟩ := ih reqs res out h hadd
      refine ⟨h1, h2, ?_⟩
      intro x hx
      rcases List.mem_cons.mp hx with hx | hx
      · exact hx ▸ hm
      · exact h3 x hx
    · simp only [scanIfaceImpls, if_neg hm] at h
      cases hs : synth k with
      | none => rw [hs] at h; exact Option.noConfusion h
      | some newKeys =>
        rw [hs] at h
        have := scan_added_true synth ks _ _ out h
        rw [this] at hadd
        exact Bool.noConfusion hadd

theorem scan_succeeds (synth : GoStr → Option (List GoStr)) :
    ∀ (snap reqs res : List GoStr) (added : Bool),
      (∀ k ∈ snap, synth k ≠ none) →
      ∃ out, scanIfaceImpls synth snap reqs res added = some out := by
  intro snap
  induction snap with
  | nil => intro reqs res added _; exact ⟨(reqs, res, added), rfl⟩
  | cons k ks ih =>
    intro reqs res added hs
    by_cases hm : k ∈ res
    · obtain ⟨out, hout⟩ := ih reqs res added (fun x hx => hs x (by simp [hx]))
      exact ⟨out, by simp only [scanIfaceImpls, if_pos hm]; exact hout⟩
    · cases hsk : synth k with
      | none => exact absurd hsk (hs k (by simp))
      | some newKeys =>
        obtain ⟨out, hout⟩ := ih (addNew reqs newKeys) (res ++ [k]) true
          (fun x hx => hs x (by simp [hx]))
        refine ⟨out, ?_⟩
        simp only [scanIfaceImpls, if_neg hm, hsk]
        exact hout

theorem closureLoop_post (synth : GoStr → Option (List GoStr)) (init : List GoStr) :
    ∀ (fuel : Nat) (reqs res : List GoStr) (out : List GoStr),
      closureLoop synth fuel reqs res = some (some out) →
      (∀ x ∈ reqs, Reaches synth init x) →
      (∀ x ∈ res, Reaches synth init x) →
      (∀ kk ∈ res, ∀ ks, synth kk = some ks → ∀ x ∈ ks, x ∈ reqs) →
      (∀ x ∈ init, x ∈ reqs) →
      res.Nodup →
      out.Nodup ∧ (∀ x ∈ out, Reaches synth init x) ∧ (∀ x ∈ init, x ∈ out) ∧
        (∀ kk ∈ out, ∀ ks, synth kk = some ks → ∀ x ∈ ks, x ∈ out) := by
  intro fuel
  induction fuel with
  | zero => intro reqs res out h; exact Option.noConfusion h
  | succ fuel ih =>
    intro reqs res out h hreq hres hcl hinit hnd
    simp only [closureLoop] at h
    cases hscan : scanIfaceImpls synth (sortStrs reqs) reqs res false with
    | none => rw [hscan] at h; simp at h
    | some r =>
      obtain ⟨reqs2, res2, added⟩ := r
      rw [hscan] at h
      have hsnapR : ∀ x ∈ sortStrs reqs, Reaches synth init x :=
        fun x hx => hreq x ((mem_sortStrs x reqs).mp hx)
      by_cases hadd : added = true
      · subst hadd
        simp only [if_true] at h
        obtain ⟨hrq2, hrs2⟩ := scan_reach synth init _ _ _ _ _ hscan hsnapR hreq hres
        obtain ⟨hmq, -⟩ := scan_mono synth _ _ _ _ _ hscan
        refine ih reqs2 res2 out h hrq2 hrs2 ?_ (fun x hx => hmq x (hinit x hx))
          (scan_nodup synth _ _ _ _ _ hscan hnd)
        exact scan_closed synth _ _ _ _ _ hscan hcl
      · have hadd' : added = false := by simpa using hadd
        subst hadd'
        simp only [Bool.false_eq_true, if_false, Option.some.injEq] at h
        obtain ⟨hq, hr, hsnap⟩ := scan_fixpoint synth _ _ _ _ hscan rfl
        have hr2 : res2 = res := hr
        rw [← h, hr2]
        have hreqres : ∀ x ∈ reqs, x ∈ res :=
          fun x hx => hsnap x ((mem_sortStrs x reqs).mpr hx)
        refine ⟨hnd, hres, fun x hx => hreqres x (hinit x hx), ?_⟩
        intro kk hkk ks hks x hx
        exact hreqres x (hcl kk hkk ks hks x hx)

theorem closureLoop_terminates (synth : GoStr → Option (List GoStr)) (B : List GoStr)
    (hB : ∀ kk ∈ B, ∀ x ∈ (synth kk).getD [], x ∈ B)
    (hsucc : ∀ k ∈ B, synth k ≠ none) :
    ∀ (n : Nat) (reqs res : List GoStr),
      (∀ x ∈ reqs, x ∈ B) → (∀ x ∈ res, x ∈ B) → res.Nodup →
      B.length + 1 ≤ n + res.length →
      ∃ out, closureLoop synth n reqs res = some (some out) := by
  intro n
  induction n with
  | zero =>
    intro reqs res hreq hres hnd hbound
    exfalso
    have hle : res.length ≤ B.length :=
      (List.subperm_of_subset hnd (fun x hx => hres x hx)).length_le
    omega
  | succ n ih =>
    intro reqs res hreq hres hnd hbound
    have hsnapB : ∀ x ∈ sortStrs reqs, x ∈ B :=
      fun x hx => hreq x ((mem_sortStrs x reqs).mp hx)
    obtain ⟨r, hr⟩ := scan_succeeds synth (sortStrs reqs) reqs res false
      (fun k hk => hsucc k (hsnapB k hk))
    obtain ⟨reqs2, res2, added⟩ := r
    simp only [closureLoop, hr]
    by_cases hadd : added = true
    · subst hadd
      simp only [if_true]
      obtain ⟨hq2, hs2⟩ := scan_inB synth B hB _ _ _ _ _ hr hsnapB hreq hres
      obtain ⟨-, hgrow⟩ := scan_growth synth _ _ _ _ _ hr
      rcases hgrow rfl with hcontra | hlt
      · exact Bool.noConfusion hcontra
      · have hlt2 : res.length < res2.length := hlt
        exact ih reqs2 res2 hq2 hs2 (scan_nodup synth _ _ _ _ _ hr hnd) (by omega)
    · have hadd' : added = false := by simpa using hadd
      subst hadd'
      simp only [Bool.false_eq_true, if_false]
      exact ⟨res2, rfl⟩

theorem reaches_mem_of_closed (synth : GoStr → Option (List GoStr)) (init out : List GoStr)
    (hinit : ∀ x ∈ init, x ∈ out)
    (hcl : ∀ kk ∈ out, ∀ ks, synth kk = some ks → ∀ x ∈ ks, x ∈ out) :
    ∀ k, Reaches synth init k → k ∈ out := by
  intro k h
  induction h with
  | base hk => exact hinit _ hk
  | step _ hs hk ih => exact hcl _ ih _ hs _ hk

/-- C5: the Generic-Implementation Closure (main.go:464-485).  If every
key's synthesis succeeds and the "requires" edges stay inside a finite
set `B` of keys (containing the initial requests and closed under the
new requirements a synthesis adds), the loop reaches its fixpoint within
`|B| + 1` scans — the loop exits exactly when a full scan sets
`addedImpl` to false, i.e. resolves zero new keys — and the resulting
implementations map contains each reachable key exactly once
(`res.Nodup` with membership exactly the reachable keys: a key is only
synthesized when not yet present). -/
theorem genericImplClosure_fixpoint (synth : GoStr → Option (List GoStr))
    (init B : List GoStr)
    (hinit : ∀ x ∈ init, x ∈ B)
    (hB : ∀ kk ∈ B, ∀ x ∈ (synth kk).getD [], x ∈ B)
    (hsucc : ∀ k ∈ B, synth k ≠ none) :
    ∃ res, closureLoop synth (B.length + 1) init [] = some (some res) ∧
      res.Nodup ∧ (∀ k, Reaches synth init k ↔ k ∈ res) := by
  obtain ⟨out, hout⟩ := closureLoop_terminates synth B hB hsucc (B.length + 1) init []
    hinit (by simp) (by simp) (by simp)
  obtain ⟨hnd, hsound, hinit2, hcl⟩ := closureLoop_post synth init (B.length + 1) init [] out
    hout (fun x hx => Reaches.base hx) (by simp) (by simp) (fun x hx => hx) (by simp)
  refine ⟨out, hout, hnd, fun k => ⟨?_, fun hk => hsound k hk⟩⟩
  exact fun hk => reaches_mem_of_closed synth init out hinit2 hcl k hk

/-- Witness for C5: key "a" requires "b", "b" requires nothing. -/
theorem genericImplClosure_fixpoint_witness :
    ∃ res, closureLoop
        (fun k => if k = strBytes "a" then some [strBytes "b"] else some [])
        ([strBytes "a", strBytes "b"].length + 1) [strBytes "a"] [] = some (some res) ∧
      res.Nodup ∧
      (∀ k, Reaches (fun k => if k = strBytes "a" then some [strBytes "b"] else some [])
        [strBytes "a"] k ↔ k ∈ res) :=
  genericImplClosure_fixpoint
    (fun k => if k = strBytes "a" then some [strBytes "b"] else some [])
    [strBytes "a"] [strBytes "a", strBytes "b"]
    (by decide) (by decide) (by decide)

/-- One symbol as the per-symbol loops of `genBindings` (main.go:370-462)
see it: `diag` is the identity string put into the aggregated diagnostic
(`fn.String()`, `struc.Name.Name + "//" + field + "?"/"!"`, ...), and
`eligible` abstracts the category's skip conditions computed from the
external `ir` data (`Name.File == nil`, `IdentIsInternal`, membership of
the owning module in the target packages). -/
structure GenSym where
  diag : GoStr
  eligible : Bool
deriving DecidableEq

/-- One category loop of `genBindings` (the shape shared by the
interface-method, function, accessor and value loops): skip ineligible
symbols; on synthesizer error append a tagged diagnostic to the
non-fatal aggregate (`resErr = multierror.Append(...)`) and continue; on
success append the binding.  The external synthesizer
(`binder.GenerateBinding` and friends) is the parameter `gen`. -/
def genCat (gen : GenSym → Except GoStr BindingFunc) :
    List GenSym → List BindingFunc × List (GoStr × GoStr) →
    List BindingFunc × List (GoStr × GoStr)
  | [], st => st
  | s :: rest, st =>
    if s.eligible then
      match gen s with
      | .error e => genCat gen rest (st.1, st.2 ++ [(s.diag, e)])
      | .ok b => genCat gen rest (st.1 ++ [b], st.2)
    else genCat gen rest st

/-- The struct-constructor loop (main.go:443-462): like `genCat`, but a
successful binding is appended only if no already-generated binding has
the same unique name (`!slices.ContainsFunc(bindings, ...UniqueName...)`:
constructors never shadow an existing same-named function). -/
def genCatNewStruct (gen : GenSym → Except GoStr BindingFunc) :
    List GenSym → List BindingFunc × List (GoStr × GoStr) →
    List BindingFunc × List (GoStr × GoStr)
  | [], st => st
  | s :: rest, st =>
    if s.eligible then
      match gen s with
      | .error e => genCatNewStruct gen rest (st.1, st.2 ++ [(s.diag, e)])
      | .ok b =>
        if st.1.any (fun b2 => b2.uniqueName = b.uniqueName) then
          genCatNewStruct gen rest st
        else genCatNewStruct gen rest (st.1 ++ [b], st.2)
    else genCatNewStruct gen rest st

/-- The per-symbol part of `genBindings` (main.go:370-462): the five
category loops in source order — interface methods, free functions,
struct accessors, package values, struct constructors — threading the
bindings list and the aggregated non-fatal diagnostics.  (The
generic-impl closure that follows in the source is `closureLoop`.) -/
def genBindingsSyms (gen : GenSym → Except GoStr BindingFunc)
    (ifaceFns funcs accessors values newStructs : List GenSym) :
    List BindingFunc × List (GoStr × GoStr) :=
  genCatNewStruct gen newStructs
    (genCat gen values (genCat gen accessors (genCat gen funcs (genCat gen ifaceFns ([], [])))))

/-- The diagnostics one category loop contributes. -/
def catErrs (gen : GenSym → Except GoStr BindingFunc) (syms : List GenSym) : List (GoStr × GoStr) :=
  syms.filterMap (fun s =>
    if s.eligible then
      match gen s with
      | .error e => some (s.diag, e)
      | .ok _ => none
    else none)

theorem genCat_errs (gen : GenSym → Except GoStr BindingFunc) :
    ∀ (syms : List GenSym) (st : List BindingFunc × List (GoStr × GoStr)),
      (genCat gen syms st).2 = st.2 ++ catErrs gen syms := by
  intro syms
  induction syms with
  | nil => intro st; simp [genCat, catErrs]
  | cons s rest ih =>
    intro st
    by_cases he : s.eligible
    · cases hg : gen s with
      | error e =>
        simp only [genCat, if_pos he, hg, ih, catErrs, List.filterMap_cons, he, if_true]
        simp [catErrs, List.append_assoc]
      | ok b =>
        simp only [genCat, if_pos he, hg, ih, catErrs, List.filterMap_cons, he, if_true]
    · have he' : s.eligible = false := by simpa using he
      simp only [genCat, he', Bool.false_eq_true, if_false, ih, catErrs,
        List.filterMap_cons]

theorem genCatNewStruct_errs (gen : GenSym → Except GoStr BindingFunc) :
    ∀ (syms : List GenSym) (st : List BindingFunc × List (GoStr × GoStr)),
      (genCatNewStruct gen syms st).2 = st.2 ++ catErrs gen syms := by
  intro syms
  induction syms with
  | nil => intro st; simp [genCatNewStruct, catErrs]
  | cons s rest ih =>
    intro st
    by_cases he : s.eligible
    · cases hg : gen s with
      | error e =>
        simp only [genCatNewStruct, if_pos he, hg, ih, catErrs, List.filterMap_cons, he, if_true]
        simp [catErrs, List.append_assoc]
      | ok b =>
        by_cases hdup : st.1.any (fun b2 => b2.uniqueName = b.uniqueName)
        · simp only [genCatNewStruct, if_pos he, hg, if_pos hdup, ih, catErrs,
            List.filterMap_cons, he, if_true]
        · simp only [genCatNewStruct, if_pos he, hg, if_neg hdup, ih, catErrs,
            List.filterMap_cons, he, if_true]
    · have he' : s.eligible = false := by simpa using he
      simp only [genCatNewStruct, he', Bool.false_eq_true, if_false, ih, catErrs,
        List.filterMap_cons]

theorem genCat_binds_mono (gen : GenSym → Except GoStr BindingFunc) :
    ∀ (syms : List GenSym) (st : List BindingFunc × List (GoStr × GoStr)) (b : BindingFunc),
      b ∈ st.1 → b ∈ (genCat gen syms st).1 := by
  intro syms
  induction syms with
  | nil => intro st b hb; simpa [genCat] using hb
  | cons s rest ih =>
    intro st b hb
    by_cases he : s.eligible
    · cases hg : gen s with
      | error e =>
        simp only [genCat, if_pos he, hg]
        exact ih _ b hb
      | ok b2 =>
        simp only [genCat, if_pos he, hg]
        exact ih _ b (List.mem_append.mpr (Or.inl hb))
    · have he' : s.eligible = false := by simpa using he
      simp only [genCat, he', Bool.false_eq_true, if_false]
      exact ih st b hb

theorem genCatNewStruct_binds_mono (gen : GenSym → Except GoStr BindingFunc) :
    ∀ (syms : List GenSym) (st : List BindingFunc × List (GoStr × GoStr)) (b : BindingFunc),
      b ∈ st.1 → b ∈ (genCatNewStruct gen syms st).1 := by
  intro syms
  induction syms with
  | nil => intro st b hb; simpa [genCatNewStruct] using hb
  | cons s rest ih =>
    intro st b hb
    by_cases he : s.eligible
    · cases hg : gen s with
      | error e =>
        simp only [genCatNewStruct, if_pos he, hg]
        exact ih _ b hb
      | ok b2 =>
        by_cases hdup : st.1.any (fun b3 => b3.uniqueName = b2.uniqueName)
        · simp only [genCatNewStruct, if_pos he, hg, if_pos hdup]
          exact ih st b hb
        · simp only [genCatNewStruct, if_pos he, hg, if_neg hdup]
          exact ih _ b (List.mem_append.mpr (Or.inl hb))
    · have he' : s.eligible = false := by simpa using he
      simp only [genCatNewStruct, he', Bool.false_eq_true, if_false]
      exact ih st b hb

theorem genCat_ok_mem (gen : GenSym → Except GoStr BindingFunc) :
    ∀ (syms : List GenSym) (st : List BindingFunc × List (GoStr × GoStr))
      (s : GenSym) (b : BindingFunc),
      s ∈ syms → s.eligible = true → gen s = .ok b →
      b ∈ (genCat gen syms st).1 := by
  intro syms
  induction syms with
  | nil => intro st s b hs; exact absurd hs (by simp)
  | cons s0 rest ih =>
    intro st s b hs helig hgen
    rcases List.mem_cons.mp hs with hs' | hs'
    · subst hs'
      simp only [genCat, helig, if_true, hgen]
      exact genCat_binds_mono gen rest _ b (List.mem_append.mpr (Or.inr (by simp)))
    · by_cases he : s0.eligible
      · cases hg : gen s0 with
        | error e =>
          simp only [genCat, if_pos he, hg]
          exact ih _ s b hs' helig hgen
        | ok b2 =>
          simp only [genCat, if_pos he, hg]
          exact ih _ s b hs' helig hgen
      · have he' : s0.eligible = false := by simpa using he
        simp only [genCat, he', Bool.false_eq_true, if_false]
        exact ih st s b hs' helig hgen

theorem genCatNewStruct_ok_mem (gen : GenSym → Except GoStr BindingFunc) :
    ∀ (syms : List GenSym) (st : List BindingFunc × List (GoStr × GoStr))
      (s : GenSym) (b : BindingFunc),
      s ∈ syms → s.eligible = true → gen s = .ok b →
      b ∈ (genCatNewStruct gen syms st).1 ∨
        ∃ b2 ∈ (genCatNewStruct gen syms st).1, b2.uniqueName = b.uniqueName := by
  intro syms
  induction syms with
  | nil => intro st s b hs; exact absurd hs (by simp)
  | cons s0 rest ih =>
    intro st s b hs helig hgen
    rcases List.mem_cons.mp hs with hs' | hs'
    · subst hs'
      simp only [genCatNewStruct, helig, if_true, hgen]
      by_cases hdup : st.1.any (fun b3 => b3.uniqueName = b.uniqueName)
      · rw [if_pos hdup]
        obtain ⟨b2, hb2, hb2n⟩ := List.any_eq_true.mp hdup
        right
        exact ⟨b2, genCatNewStruct_binds_mono gen rest st b2 hb2, by simpa using hb2n⟩
      · rw [if_neg hdup]
        left
        exact genCatNewStruct_binds_mono gen rest _ b (List.mem_append.mpr (Or.inr (by simp)))
    · by_cases he : s0.eligible
      · cases hg : gen s0 with
        | error e =>
          simp only [genCatNewStruct, if_pos he, hg]
          exact ih _ s b hs' helig hgen
        | ok b2 =>
          by_cases hdup : st.1.any (fun b3 => b3.uniqueName = b2.uniqueName)
          · simp only [genCatNewStruct, if_pos he, hg, if_pos hdup]
            exact ih st s b hs' helig hgen
          · simp only [genCatNewStruct, if_pos he, hg, if_neg hdup]
            exact ih _ s b hs' helig hgen
      · have he' : s0.eligible = false := by simpa using he
        simp only [genCatNewStruct, he', Bool.false_eq_true, if_false]
        exact ih st s b hs' helig hgen

theorem catErrs_eq_nil (gen : GenSym → Except GoStr BindingFunc) (l : List GenSym)
    (h : ∀ s ∈ l, s.eligible = true → ∃ b, gen s = .ok b) : catErrs gen l = [] := by
  rw [catErrs, List.filterMap_eq_nil_iff]
  intro s hs
  by_cases he : s.eligible
  · obtain ⟨b, hb⟩ := h s hs he
    simp [he, hb]
  · have he' : s.eligible = false := by simpa using he
    simp [he']

theorem catErrs_eq_single (gen : GenSym → Except GoStr BindingFunc) (l : List GenSym)
    (S : GenSym) (e : GoStr) (hS : S ∈ l) (hnd : l.Nodup)
    (hSelig : S.eligible = true) (hSfail : gen S = .error e)
    (h : ∀ s ∈ l, s.eligible = true → s ≠ S → ∃ b, gen s = .ok b) :
    catErrs gen l = [(S.diag, e)] := by
  obtain ⟨l1, l2, rfl⟩ := List.append_of_mem hS
  have hnd1 := List.nodup_append.mp hnd
  have hS1 : S ∉ l1 := fun hmem => (hnd1.2.2 hmem) (by simp)
  have hS2 : S ∉ l2 := (List.nodup_cons.mp hnd1.2.1).1
  have h1 : catErrs gen l1 = [] := by
    refine catErrs_eq_nil gen l1 ?_
    intro s hs he
    exact h s (by simp [hs]) he (fun heq => hS1 (heq ▸ hs))
  have h2 : catErrs gen l2 = [] := by
    refine catErrs_eq_nil gen l2 ?_
    intro s hs he
    exact h s (by simp [hs]) he (fun heq => hS2 (heq ▸ hs))
  rw [catErrs, List.filterMap_append, List.filterMap_cons]
  rw [catErrs] at h1 h2
  simp [h1, h2, hSelig, hSfail]

/-- C6: partial failure in the per-symbol binding pipeline
(main.go:370-462).  If synthesis fails for exactly one symbol `S`
(appearing once among the five category lists) and succeeds for every
other eligible symbol, then: the aggregated non-fatal error contains
exactly one diagnostic, tagged with `S`'s identity and the cause; every
other eligible symbol of the first four categories gets its binding into
the result; and every other eligible constructor symbol gets its binding
in unless an already-generated binding carries the same unique name (the
deliberate constructor-dedup skip), in which case such a binding is
present.  The pipeline returns normally — a per-symbol failure never
aborts it (`genBindingsSyms` is total; only the closure stage can return
a fatal error in the source). -/
theorem bindingPipeline_partial_failure (gen : GenSym → Except GoStr BindingFunc)
    (ifaceFns funcs accessors values newStructs : List GenSym)
    (S : GenSym) (e : GoStr)
    (hnd : (ifaceFns ++ funcs ++ accessors ++ values ++ newStructs).Nodup)
    (hSmem : S ∈ ifaceFns ++ funcs ++ accessors ++ values ++ newStructs)
    (hSelig : S.eligible = true)
    (hSfail : gen S = .error e)
    (hok : ∀ s ∈ ifaceFns ++ funcs ++ accessors ++ values ++ newStructs,
      s.eligible = true → s ≠ S → ∃ b, gen s = .ok b) :
    (genBindingsSyms gen ifaceFns funcs accessors values newStructs).2 = [(S.diag, e)] ∧
    (∀ s ∈ ifaceFns ++ funcs ++ accessors ++ values, s.eligible = true → s ≠ S →
      ∀ b, gen s = .ok b →
        b ∈ (genBindingsSyms gen ifaceFns funcs accessors values newStructs).1) ∧
    (∀ s ∈ newStructs, s.eligible = true → s ≠ S → ∀ b, gen s = .ok b →
      b ∈ (genBindingsSyms gen ifaceFns funcs accessors values newStructs).1 ∨
        ∃ b2 ∈ (genBindingsSyms gen ifaceFns funcs accessors values newStructs).1,
          b2.uniqueName = b.uniqueName) := by
  refine ⟨?_, ?_, ?_⟩
  · have herrs : (genBindingsSyms gen ifaceFns funcs accessors values newStructs).2 =
        catErrs gen (ifaceFns ++ funcs ++ accessors ++ values ++ newStructs) := by
      simp only [genBindingsSyms, genCatNewStruct_errs, genCat_errs, catErrs,
        List.filterMap_append]
      simp [List.append_assoc]
    rw [herrs]
    exact catErrs_eq_single gen _ S e hSmem hnd hSelig hSfail hok
  · intro s hs helig hne b hb
    simp only [genBindingsSyms]
    rcases List.mem_append.mp hs with hs3 | hsD
    · rcases List.mem_append.mp hs3 with hs2 | hsC
      · rcases List.mem_append.mp hs2 with hsA | hsB
        · exact genCatNewStruct_binds_mono gen newStructs _ b
            (genCat_binds_mono gen values _ b
              (genCat_binds_mono gen accessors _ b
                (genCat_binds_mono gen funcs _ b
                  (genCat_ok_mem gen ifaceFns _ s b hsA helig hb))))
        · exact genCatNewStruct_binds_mono gen newStructs _ b
            (genCat_binds_mono gen values _ b
              (genCat_binds_mono gen accessors _ b
                (genCat_ok_mem gen funcs _ s b hsB helig hb)))
      · exact genCatNewStruct_binds_mono gen newStructs _ b
          (genCat_binds_mono gen values _ b
            (genCat_ok_mem gen accessors _ s b hsC helig hb))
    · exact genCatNewStruct_binds_mono gen newStructs _ b
        (genCat_ok_mem gen values _ s b hsD helig hb)
  · intro s hs helig hne b hb
    simp only [genBindingsSyms]
    exact genCatNewStruct_ok_mem gen newStructs _ s b hs helig hb

/-- Concrete synthesizer for the C6 witness: fails exactly on the symbol
whose diagnostic identity is `"bad"`. -/
def c6gen : GenSym → Except GoStr BindingFunc := fun s =>
  if s.diag = strBytes "bad" then .error (strBytes "boom")
  else .ok ⟨s.diag, strBytes "m"⟩

/-- Witness for C6: one interface-method symbol succeeds, one function
symbol fails; the aggregate holds exactly the failing symbol's
diagnostic. -/
theorem bindingPipeline_partial_failure_witness :
    (genBindingsSyms c6gen [⟨strBytes "f1", true⟩] [⟨strBytes "bad", true⟩] [] [] []).2 =
      [(strBytes "bad", strBytes "boom")] :=
  (bindingPipeline_partial_failure c6gen [⟨strBytes "f1", true⟩] [⟨strBytes "bad", true⟩]
    [] [] [] ⟨strBytes "bad", true⟩ (strBytes "boom")
    (by decide) (by decide) (by decide) (by rfl)
    (by
      intro s hs helig hne
      simp only [List.append_nil, List.mem_append, List.mem_singleton] at hs
      rcases hs with hs | hs
      · subst hs
        exact ⟨⟨strBytes "f1", strBytes "m"⟩, by rfl⟩
      · exact absurd hs hne)).1
